import Mathlib

/-
Verification of the document-processing / answer-evaluation core of the
ChatBot60 repository (an interview-preparation web application).

The JavaScript source is shallowly embedded:
* JS strings are `String` / `List Char`, processed by structural recursion
  mirroring the regular expressions and string methods of the source;
* JS numbers appearing as vector coordinates and scores are modelled as `ℝ`
  (vector arithmetic) resp. `ℕ` / `ℚ` (integer scores, averages);
* JS values that may fail `typeof` checks are modelled by small inductive
  types (`JsVal`, `JsText`, `JsArg`) with an explicit non-conforming case;
* `throw` / `try-catch` become `Except` values;
* the external Gemini service calls are oracles passed in as parameters
  (`Except`-valued functions), since the network is outside the program.
-/

namespace ChatBot60

/-- A JS value in a vector position: either a number or some non-number value
(`typeof n === 'number'` fails on the latter). -/
inductive JsVal where
  | num : ℝ → JsVal
  | nonNum : JsVal

/-- Is this JS value a number?  Mirrors `typeof n === 'number'`. -/
def JsVal.isNum : JsVal → Bool
  | .num _ => true
  | .nonNum => false

/-- The numeric payload; only meaningful under an `isNum` guard (the source
performs arithmetic only after validating `every(n => typeof n === 'number')`). -/
def JsVal.toNum : JsVal → ℝ
  | .num r => r
  | .nonNum => 0

/-- A JS value in a text position: a string or some non-string value
(`typeof text !== 'string'` fails on the latter). -/
inductive JsText where
  | str : String → JsText
  | nonStr : JsText

/-- Mirrors `typeof t === 'string'`. -/
def JsText.isStr : JsText → Bool
  | .str _ => true
  | .nonStr => false

/-- An argument that may or may not be an array (`Array.isArray` check in
`cosineSimilarity`): an array of JS values, or any non-array value. -/
inductive JsArg where
  | arr : List JsVal → JsArg
  | nonArr : JsArg

/-- A JS error object as inspected by `retryWithBackoff`: an optional
HTTP-style status (`error?.status || error?.response?.status`) and a message. -/
structure JsError where
  status : Option Nat
  message : String

/-- Substring test, `String` data level; mirrors `String.prototype.includes`. -/
def hasSubstr (needle : List Char) : List Char → Bool
  | [] => needle.isEmpty
  | c :: cs => needle.isPrefixOf (c :: cs) || hasSubstr needle cs

/-! ## Retry/backoff policy

Embeds `retryWithBackoff` from src/server/controllers/documentController.js
(lines 504-529).  The source loops `for (let i = 0; i < retries; i++)`,
returning on success, rethrowing immediately on a non-retryable error or on
the last iteration, and otherwise sleeping `1000 * 2 ** i` ms.  The embedding
makes the attempt outcomes an oracle `f : Nat → Except JsError α` (the i-th
call result) and additionally returns the number of attempts made and the
list of delays slept, in order. -/

/-- Mirrors
`status === 503 || status === 429 || error.message?.includes('overloaded') || error.message?.includes('rate limit')`. -/
def isRateLimitError (e : JsError) : Bool :=
  e.status == some 503 || e.status == some 429 ||
    hasSubstr "overloaded".data e.message.data ||
    hasSubstr "rate limit".data e.message.data

/-- The safeguard error thrown after the loop (unreachable for `retries > 0`). -/
def retryExhaustedError (retries : Nat) : JsError :=
  ⟨none, "API call failed after " ++ toString retries ++ " retries."⟩

/-- The loop body of `retryWithBackoff`.  `i` is the current 0-indexed attempt,
`remaining` the number of loop iterations still allowed (so `remaining = 0`
corresponds to the loop having ended, and `remaining = 1` to the last retry,
i.e. `i === retries - 1`).  Returns (result, number of attempts made from here,
delays slept from here). -/
def retryGo (f : Nat → Except JsError α) (retries : Nat) :
    Nat → Nat → Except JsError α × Nat × List Nat
  | _, 0 => (.error (retryExhaustedError retries), 0, [])
  | i, remaining + 1 =>
    match f i with
    | .ok a => (.ok a, 1, [])
    | .error e =>
      if remaining = 0 || !isRateLimitError e then
        (.error e, 1, [])
      else
        let rest := retryGo f retries (i + 1) remaining
        (rest.1, rest.2.1 + 1, 1000 * 2 ^ i :: rest.2.2)

/-- `retryWithBackoff(fn, retries = MAX_RETRIES)` with `MAX_RETRIES = 3`;
the call outcomes are the oracle `f`. -/
def retryWithBackoff (f : Nat → Except JsError α) (retries : Nat := 3) :
    Except JsError α × Nat × List Nat :=
  retryGo f retries 0 retries

/-! ## Text chunker

Embeds `chunkText` from src/utils/pdfProcessor.js (src/unnamed/part_002,
lines 19-38).  All string work is done on `List Char`. -/

/-- One pass of `text.replace(/\s+/g, ' ')`: every maximal run of whitespace
becomes a single space.  The flag records whether the previous character was
whitespace (i.e. we are inside a run whose space was already emitted). -/
def collapseWsGo : Bool → List Char → List Char
  | _, [] => []
  | prevWs, c :: cs =>
    if c.isWhitespace then
      if prevWs then collapseWsGo true cs else ' ' :: collapseWsGo true cs
    else c :: collapseWsGo false cs

/-- `text.replace(/\n+/g, '\n')`: every maximal run of newlines becomes a
single newline.  (After the `\s+` pass there are no newlines left, so this is
a no-op in the composed pipeline; it is kept for fidelity.) -/
def collapseNlGo : Bool → List Char → List Char
  | _, [] => []
  | prevNl, c :: cs =>
    if c = '\n' then
      if prevNl then collapseNlGo true cs else '\n' :: collapseNlGo true cs
    else c :: collapseNlGo false cs

/-- Drop trailing whitespace (the right half of `String.prototype.trim`). -/
def dropTrailingWs : List Char → List Char
  | [] => []
  | c :: cs =>
    match dropTrailingWs cs with
    | [] => if c.isWhitespace then [] else [c]
    | r => c :: r

/-- `String.prototype.trim`: drop leading and trailing whitespace. -/
def trimChars (l : List Char) : List Char :=
  dropTrailingWs (l.dropWhile Char.isWhitespace)

/-- The cleaning pipeline of `chunkText`:
`text.replace(/\s+/g, ' ').replace(/\n+/g, '\n').trim()`. -/
def cleanChars (l : List Char) : List Char :=
  trimChars (collapseNlGo false (collapseWsGo false l))

/-- `str.split(sep)` for a single-character separator, JS semantics:
`"".split(' ')` is `[""]`, separators at the ends produce empty segments. -/
def splitOnChar (sep : Char) : List Char → List (List Char)
  | [] => [[]]
  | c :: cs =>
    if c = sep then [] :: splitOnChar sep cs
    else
      match splitOnChar sep cs with
      | [] => [[c]]
      | w :: ws => (c :: w) :: ws

/-- The word list of `chunkText`: `cleanedText.split(' ')`. -/
def wordsOfCleaned (text : String) : List (List Char) :=
  splitOnChar ' ' (cleanChars text.data)

/-- The slicing loop `for (let i = 0; i < words.length; i += wordsPerChunk)`
taking `words.slice(i, i + wordsPerChunk)` each round.  Structured with a fuel
argument so that it is structurally recursive; `fuel ≥ length of the list`
makes it compute the same windows as the source loop (the source diverges for
`wordsPerChunk = 0`; all claims assume `wordsPerChunk ≥ 1`). -/
def sliceGo (wpc : Nat) : Nat → List α → List (List α)
  | _, [] => []
  | 0, l => [l]
  | fuel + 1, x :: xs => (x :: xs).take wpc :: sliceGo wpc fuel (List.drop (wpc - 1) xs)

/-- The consecutive windows of `wpc` words. -/
def sliceWindows (wpc : Nat) (l : List α) : List (List α) :=
  sliceGo wpc l.length l

/-- `words.slice(i, i + wordsPerChunk).join(' ')`: interpose single spaces. -/
def joinWords : List (List Char) → List Char
  | [] => []
  | [w] => w
  | w :: v :: ws => w ++ ' ' :: joinWords (v :: ws)

/-- `chunkText(text, wordsPerChunk = 500)`: clean, split into words, slice
into windows, join each window with single spaces, and keep `chunk.trim()`
exactly when `chunk.trim().length > 50`. -/
def chunkText (text : String) (wordsPerChunk : Nat := 500) : List String :=
  let words := wordsOfCleaned text
  ((sliceWindows wordsPerChunk words).map joinWords).filterMap fun chunk =>
    if 50 < (trimChars chunk).length then some (String.mk (trimChars chunk)) else none

/-! ## Upload pipeline text stage

Embeds the text-length guard and the empty-chunk-list guard of
`uploadDocument` (src/server/controllers/documentController.js lines 185-209):
the two 400 responses are the only exits that prevent the chunks from
reaching the embedding step. -/

/-- Outcome of the text-processing stage of `uploadDocument`. -/
inductive UploadStep where
  | insufficientText : UploadStep
  | emptyChunksError : UploadStep
  | proceedToEmbedding : List String → UploadStep
deriving DecidableEq

/-- `uploadDocument` after text extraction: reject if
`!extractedText || extractedText.trim().length < 50`; otherwise chunk with
500 words per chunk and reject if the chunk list is empty. -/
def uploadTextStage (extractedText : String) : UploadStep :=
  if (trimChars extractedText.data).length < 50 then .insufficientText
  else if (chunkText extractedText 500).length = 0 then .emptyChunksError
  else .proceedToEmbedding (chunkText extractedText 500)

/-! ## Embedding client

Embeds `generateEmbeddings` from src/server/controllers/documentController.js
(lines 586-631).  The per-item service interaction — `model.embedContent`
under `retryWithBackoff`, including the structural/dimension validation that
throws (non-retryably) inside the retried function — is abstracted into an
oracle `svc : Nat → Except String (List ℝ)` giving, for the i-th item, either
the `res.embedding.values` array finally obtained or the message of the error
that escaped the retry wrapper.  A structurally missing `values` field is an
error outcome. -/

/-- `embeddingDimension = 768`. -/
def embeddingDimension : Nat := 768

/-- `new Array(embeddingDimension).fill(0)`. -/
noncomputable def zeroVec : List ℝ := List.replicate embeddingDimension 0

/-- One iteration of the `for...of` loop of `generateEmbeddings`: empty or
non-string text is skipped with a zero-vector placeholder before any service
call; a service result whose vector is not exactly 768 long throws inside the
retried function and, like any error escaping the retries, is replaced by a
zero-vector placeholder by the per-chunk `catch`. -/
noncomputable def embedItemResult (t : JsText) (res : Except String (List ℝ)) : List ℝ :=
  match t with
  | .nonStr => zeroVec
  | .str s =>
    if trimChars s.data = [] then zeroVec
    else
      match res with
      | .ok v => if v.length = embeddingDimension then v else zeroVec
      | .error _ => zeroVec

/-- `generateEmbeddings(texts)`: rejects an empty input array (the outer catch
rewraps the message), otherwise processes the items sequentially in input
order, producing one vector per item. -/
noncomputable def generateEmbeddings (texts : List JsText)
    (svc : Nat → Except String (List ℝ)) : Except String (List (List ℝ)) :=
  if texts.length = 0 then
    .error ("Failed to generate embeddings: " ++
      "Input must be a non-empty array of texts for embeddings")
  else
    .ok (texts.enum.map fun p => embedItemResult p.2 (svc p.1))

/-! ## Cosine similarity

Embeds `cosineSimilarity` (lines 946-985). -/

/-- `vecA.reduce((sum, a, i) => sum + a * vecB[i], 0)`; the two vectors have
equal length when this is reached, so indexing into `vecB` is `zip`. -/
def dotProd (a b : List ℝ) : ℝ :=
  (a.zip b).foldl (fun s p => s + p.1 * p.2) 0

/-- `vec.reduce((sum, a) => sum + a * a, 0)` (the square of the magnitude). -/
def sumSq (a : List ℝ) : ℝ :=
  a.foldl (fun s x => s + x * x) 0

/-- The length-mismatch / empty-vector error message of `cosineSimilarity`. -/
def lengthMismatchMsg : String :=
  "Invalid vectors for similarity calculation: lengths differ or vector is empty"

/-- The non-numeric-elements error message of `cosineSimilarity`. -/
def nonNumericMsg : String :=
  "Invalid vectors: elements must be numbers."

open Classical in
/-- `cosineSimilarity(vecA, vecB)`: non-arrays return 0; empty or
length-mismatched vectors throw; non-numeric elements throw; a zero-magnitude
vector gives 0; otherwise the quotient of dot product and product of
magnitudes, clamped to [-1, 1]. -/
noncomputable def cosineSimilarity (vecA vecB : JsArg) : Except String ℝ :=
  match vecA, vecB with
  | .arr A, .arr B =>
    if A.length = 0 ∨ A.length ≠ B.length then
      .error lengthMismatchMsg
    else if !(A.all JsVal.isNum && B.all JsVal.isNum) then
      .error nonNumericMsg
    else
      let a := A.map JsVal.toNum
      let b := B.map JsVal.toNum
      let dotProduct := dotProd a b
      let magnitudeA := Real.sqrt (sumSq a)
      let magnitudeB := Real.sqrt (sumSq b)
      if magnitudeA = 0 ∨ magnitudeB = 0 then .ok 0
      else .ok (max (-1) (min 1 (dotProduct / (magnitudeA * magnitudeB))))
  | _, _ => .ok 0

/-! ## Similarity retriever

Embeds `findSimilarChunks` (lines 991-1042). -/

/-- A stored chunk as inspected by `findSimilarChunks`: `embedding = none`
models a chunk whose `embedding` property is missing, falsy, or not an array
(the structural check at line 1011). -/
structure ChunkObj where
  text : String
  embedding : Option (List JsVal)

/-- An entry of the result list: `{ index, chunk, similarity }`. -/
structure SimEntry where
  index : Nat
  chunk : ChunkObj
  similarity : ℝ

/-- The `.map ... .filter ...` stage: each chunk is tagged with its original
index; a chunk with a structurally invalid embedding, or one for which
`cosineSimilarity` throws, becomes `null` and is filtered out.  (The
`isNaN` part of the filter has no counterpart in the `ℝ` model.) -/
noncomputable def validSims (q : List JsVal) (cl : List ChunkObj) : List SimEntry :=
  cl.enum.filterMap fun p =>
    match p.2.embedding with
    | none => none
    | some emb =>
      match cosineSimilarity (.arr q) (.arr emb) with
      | .error _ => none
      | .ok s => some ⟨p.1, p.2, s⟩

open Classical in
/-- `findSimilarChunks(queryEmbedding, chunks, topK = 3)`: invalid or empty
query or chunk list returns `[]`; a non-positive or non-integer `topK`
defaults to 3 (`topK = none` models a non-number or non-integer value); the
valid similarities are sorted descending (`(a, b) => b.similarity -
a.similarity` under a stable sort) and the first `topK` are returned. -/
noncomputable def findSimilarChunks (queryEmbedding : JsArg)
    (chunks : Option (List ChunkObj)) (topK : Option Int) : List SimEntry :=
  match queryEmbedding with
  | .nonArr => []
  | .arr q =>
    if q.length = 0 then []
    else
      match chunks with
      | none => []
      | some cl =>
        if cl.length = 0 then []
        else
          let k : Nat := match topK with
            | some t => if t < 1 then 3 else t.toNat
            | none => 3
          ((validSims q cl).mergeSort
            (fun a b => decide (b.similarity ≤ a.similarity))).take k

/-! ## Answer evaluator

Embeds `evaluateAllAnswers` (lines 779-941).  The single generation call —
prompt construction, `retryWithBackoff`, and the empty-text / safety /
truncation checks that throw inside the retried function — is abstracted into
the oracle `genResult : Except String String`: either the raw evaluation text
finally returned, or the message of the error that escaped the retries.  (The
blank-text check is kept explicitly since it is a distinct throw site.)
The regex-based parsing is embedded character by character. -/

/-- A question/answer pair as validated by the source:
`typeof qa.question === 'string' && typeof qa.answer === 'string'`. -/
structure QAPair where
  question : JsText
  answer : JsText

/-- One parsed evaluation entry. -/
structure Evaluation where
  score : Nat
  relevanceScore : Nat
  correctnessScore : Nat
  feedback : String
deriving DecidableEq

/-- Case-insensitive literal match (the `/i` flag); returns the rest of the
input after the literal. -/
def matchLitCI : List Char → List Char → Option (List Char)
  | [], l => some l
  | _ :: _, [] => none
  | p :: ps, c :: cs => if p.toLower = c.toLower then matchLitCI ps cs else none

/-- Match the split regex `/Question\s+\d+:/i` at the head of the input;
returns the suffix after the match. -/
def matchQuestionHeader (l : List Char) : Option (List Char) :=
  match matchLitCI "question".data l with
  | none => none
  | some r1 =>
    if (r1.takeWhile Char.isWhitespace).isEmpty then none
    else
      let r2 := r1.dropWhile Char.isWhitespace
      if (r2.takeWhile Char.isDigit).isEmpty then none
      else
        match r2.dropWhile Char.isDigit with
        | ':' :: r3 => some r3
        | _ => none

/-- `evaluationText.split(/Question\s+\d+:/i)`: scan left to right, cutting a
segment at every match.  `fuel` only serves structural recursion; with
`fuel ≥ length of the input` it computes the JS split. -/
def splitQuestionsGo : Nat → List Char → List (List Char)
  | _, [] => [[]]
  | 0, l => [l]
  | fuel + 1, c :: cs =>
    match matchQuestionHeader (c :: cs) with
    | some rest => [] :: splitQuestionsGo fuel rest
    | none =>
      match splitQuestionsGo fuel cs with
      | [] => [[c]]
      | w :: ws => (c :: w) :: ws

/-- The question blocks: split, then `.filter(block => block.trim())` (JS:
keep the segments that are non-empty after trimming). -/
def questionBlocks (text : String) : List (List Char) :=
  (splitQuestionsGo text.data.length text.data).filter fun b => !(trimChars b).isEmpty

/-- `parseInt(digits, 10)` on a non-empty digit string. -/
def digitsToNat (ds : List Char) : Nat :=
  ds.foldl (fun n c => 10 * n + (c.toNat - '0'.toNat)) 0

/-- First match of `/<label>:\s*(\d+)(?:\s*\/10)?/i` in the block, returning
the captured integer: scan for the first position where the label matches and
at least one digit follows the optional whitespace.  (The optional `/10`
suffix does not affect the captured digits.) -/
def extractScore (label : List Char) : List Char → Option Nat
  | [] => none
  | c :: cs =>
    match matchLitCI label (c :: cs) with
    | some rest =>
      let ds := (rest.dropWhile Char.isWhitespace).takeWhile Char.isDigit
      if ds.isEmpty then extractScore label cs else some (digitsToNat ds)
    | none => extractScore label cs

/-- First match of `/Feedback:\s*([\s\S]*)/i`: everything after the first
`Feedback:` label and the greedy whitespace run following it. -/
def extractFeedback : List Char → Option (List Char)
  | [] => none
  | c :: cs =>
    match matchLitCI "feedback:".data (c :: cs) with
    | some rest => some (rest.dropWhile Char.isWhitespace)
    | none => extractFeedback cs

/-- `Math.max(1, Math.min(10, score || 1))` (in JS `0 || 1` is `1`; `parseInt`
of a captured `\d+` is never `NaN`). -/
def clampScore (n : Nat) : Nat :=
  max 1 (min 10 (if n = 0 then 1 else n))

/-- The body of the parsing loop for one question block (already trimmed by
`questionBlocks`-side `.trim()` inside the loop). -/
def parseBlock (block : List Char) : Evaluation :=
  let b := trimChars block
  let relevanceMatch := extractScore "relevance:".data b
  let correctnessMatch := extractScore "correctness:".data b
  let overallMatch := extractScore "overall:".data b
  let feedbackMatch := extractFeedback b
  let relevanceScore := relevanceMatch.getD 5
  let correctnessScore := correctnessMatch.getD 5
  -- `Math.round((relevanceScore + correctnessScore) / 2)` rounds .5 up
  let overallScore := overallMatch.getD ((relevanceScore + correctnessScore + 1) / 2)
  let feedback := match feedbackMatch with
    | some f => String.mk (trimChars f)
    | none => "Feedback could not be parsed. Please check the raw AI response if needed."
  ⟨clampScore overallScore, clampScore relevanceScore, clampScore correctnessScore, feedback⟩

/-- The placeholder entry pushed while padding missing evaluations. -/
def missingEvaluation : Evaluation :=
  ⟨1, 1, 1, "Evaluation for this question was missing in the AI response."⟩

/-- The fallback entry produced for input index `i` by the outer `catch`. -/
def criticalEvaluation (msg : String) (i : Nat) : Evaluation :=
  ⟨1, 1, 1, "A critical error occurred during evaluation: " ++ msg ++
    ". Unable to provide feedback for question " ++ toString (i + 1) ++ "."⟩

/-- Index of the first pair failing
`!qa || typeof qa.question !== 'string' || typeof qa.answer !== 'string'`
(the `forEach` throws at the first offender). -/
def firstInvalidPair (qaPairs : List QAPair) : Option Nat :=
  qaPairs.findIdx? fun qa => !(qa.question.isStr && qa.answer.isStr)

/-- The validation error message for the pair at index `idx`. -/
def invalidPairMsg (idx : Nat) : String :=
  "Invalid format for question/answer pair at index " ++ toString idx ++
    ". Expected \x7bquestion: string, answer: string\x7d"

/-- The zero-blocks parse error message. -/
def parseFailMsg : String :=
  "Failed to parse evaluation response format. Unexpected AI output."

/-- The empty-input validation error message. -/
def emptyPairsMsg : String :=
  "Must provide a non-empty array of questions and answers for evaluation"

/-- The blank-generation-response error message. -/
def emptyResponseMsg : String :=
  "Empty evaluation response received from AI model"

/-- The `try` block of `evaluateAllAnswers`: validation, generation (oracle),
blank-response check, block splitting, per-block parsing, padding and
truncation.  Every `throw` is an `Except.error` carrying the source message.
(An empty resume context is replaced by a placeholder string before prompt
construction; the prompt only feeds the generation oracle, so this step has
no further observable effect here.) -/
def evaluateAllAnswersTry (qaPairs : List QAPair) (_resumeContext : JsText)
    (genResult : Except String String) : Except String (List Evaluation) :=
  if qaPairs.length = 0 then .error emptyPairsMsg
  else
    match firstInvalidPair qaPairs with
    | some idx => .error (invalidPairMsg idx)
    | none =>
      match genResult with
      | .error e => .error e
      | .ok evaluationText =>
        if trimChars evaluationText.data = [] then .error emptyResponseMsg
        else
          let blocks := questionBlocks evaluationText
          if blocks.length = 0 then .error parseFailMsg
          else
            let evaluations := blocks.map parseBlock
            .ok ((evaluations ++
              List.replicate (qaPairs.length - evaluations.length)
                missingEvaluation).take qaPairs.length)

/-- `evaluateAllAnswers(questionsAndAnswers, resumeContext)`: the `try` block
above, with the outer `catch` converting any error into one fallback entry
per input pair. -/
def evaluateAllAnswers (qaPairs : List QAPair) (resumeContext : JsText)
    (genResult : Except String String) : List Evaluation :=
  match evaluateAllAnswersTry qaPairs resumeContext genResult with
  | .ok evaluations => evaluations
  | .error e => qaPairs.enum.map fun p => criticalEvaluation e p.1

/-! ## Score aggregator

Embeds `calculateFinalScores` from the Chat model (src/unnamed/part_003,
lines 89-130).  Scores are `ℚ`; `typeof x === 'number'` becomes `Option.isSome`
(`parseFloat` of a number is the number itself, and `|| 0` only replaces
`NaN`, which has no counterpart in `ℚ`). -/

/-- Message roles of the chat schema. -/
inductive Role where
  | user | assistant | system
deriving DecidableEq

/-- A transcript message as inspected by `calculateFinalScores`. -/
structure ChatMessage where
  role : Role
  relevanceScore : Option ℚ
  correctnessScore : Option ℚ

/-- The computed aggregate fields (unset = `undefined`). -/
structure FinalScores where
  finalScore : Option ℚ
  averageRelevance : Option ℚ
  averageCorrectness : Option ℚ
deriving DecidableEq

/-- `parseFloat(avg.toFixed(1))`: round to one decimal place (ties away from
zero for the non-negative values occurring here, like `toFixed`). -/
def round1 (q : ℚ) : ℚ :=
  (round (10 * q) : ℤ) / 10

/-- The messages selected for aggregation. -/
def scoredMessages (messages : List ChatMessage) : List ChatMessage :=
  messages.filter fun m =>
    decide (m.role = Role.assistant) && m.relevanceScore.isSome &&
      m.correctnessScore.isSome

/-- `calculateFinalScores`: with no scored messages every aggregate is unset;
otherwise the per-axis arithmetic means are rounded to one decimal place and
the final score is the rounded mean of the two (unrounded) axis means. -/
def calculateFinalScores (messages : List ChatMessage) : FinalScores :=
  let scored := scoredMessages messages
  if scored.length = 0 then ⟨none, none, none⟩
  else
    let totalRelevance := (scored.map fun m => m.relevanceScore.getD 0).sum
    let totalCorrectness := (scored.map fun m => m.correctnessScore.getD 0).sum
    let avgRelevance := totalRelevance / (scored.length : ℚ)
    let avgCorrectness := totalCorrectness / (scored.length : ℚ)
    ⟨some (round1 ((avgRelevance + avgCorrectness) / 2)),
      some (round1 avgRelevance), some (round1 avgCorrectness)⟩

/-! ## Concrete fixtures used by witnesses and counterexamples -/

/-- An oracle whose every attempt fails with a retryable 429 error. -/
def alwaysBusyOracle : Nat → Except JsError Unit :=
  fun _ => .error ⟨some 429, "Resource exhausted"⟩

/-- An embedding-service oracle that always fails. -/
def failingEmbedOracle : Nat → Except String (List ℝ) :=
  fun _ => .error "service unavailable"

/-- Two fully scored assistant messages: relevance [8, 6], correctness [6, 8]. -/
def demoScoredMessages : List ChatMessage :=
  [⟨Role.assistant, some 8, some 6⟩, ⟨Role.assistant, some 6, some 8⟩]

/-- A pair whose answer is not a string (fails validation). -/
def badPair : QAPair := ⟨JsText.str "Q", JsText.nonStr⟩

/-- A well-formed question/answer pair. -/
def goodPair : QAPair := ⟨JsText.str "Q", JsText.str "A"⟩

/-- Two stored chunks: one with a valid one-dimensional embedding, one with a
structurally invalid (missing/non-array) embedding. -/
def demoChunks : List ChunkObj :=
  [⟨"alpha", some [JsVal.num 1]⟩, ⟨"beta", none⟩]

/-- A small document text with irregular whitespace, for the chunking witness. -/
def demoChunkTextInput : String :=
  "  interview preparation requires    consistent practice\nand detailed feedback on every answer  "

/-! # Supporting lemmas -/

/-- Every value produced by one batch-embedding iteration has the configured
dimension: a kept service vector passed the explicit length-768 check, and
every other case is the zero-vector placeholder. -/
theorem embedItemResult_length (t : JsText) (res : Except String (List ℝ)) :
    (embedItemResult t res).length = embeddingDimension := by
  cases t with
  | nonStr => simp [embedItemResult, zeroVec]
  | str s =>
    by_cases htrim : trimChars s.data = []
    · simp [embedItemResult, htrim, zeroVec]
    · cases res with
      | error e => simp [embedItemResult, htrim, zeroVec]
      | ok v =>
        by_cases hdim : v.length = embeddingDimension
        · simp [embedItemResult, htrim, hdim]
        · simp [embedItemResult, htrim, hdim, zeroVec]

/-- Folding `fun s x => s + f x` from `c` sums `f` over the list. -/
theorem foldl_add_f {α : Type} (f : α → ℝ) :
    ∀ (l : List α) (c : ℝ), l.foldl (fun s x => s + f x) c = c + (l.map f).sum := by
  intro l
  induction l with
  | nil => intro c; simp
  | cons a l ih => intro c; simp [ih, add_assoc]

/-- `dotProd` as a sum over the zipped lists. -/
theorem dotProd_eq_sum (a b : List ℝ) :
    dotProd a b = ((a.zip b).map fun p => p.1 * p.2).sum := by
  simpa using foldl_add_f (fun p : ℝ × ℝ => p.1 * p.2) (a.zip b) 0

/-- `sumSq` as a sum of squares. -/
theorem sumSq_eq_sum (a : List ℝ) : sumSq a = (a.map fun x => x * x).sum := by
  simpa using foldl_add_f (fun x : ℝ => x * x) a 0

/-- Zipping a list with itself pairs each element with itself. -/
theorem zip_self_eq_map {α : Type} (a : List α) :
    a.zip a = a.map fun x => (x, x) := by
  induction a with
  | nil => rfl
  | cons x l ih => simp [List.zip_cons_cons, ih]

/-- The dot product of a vector with itself is its summed squares. -/
theorem dotProd_self (a : List ℝ) : dotProd a a = sumSq a := by
  rw [dotProd_eq_sum, sumSq_eq_sum, zip_self_eq_map, List.map_map]
  rfl

/-- Summed squares are non-negative. -/
theorem sumSq_nonneg (a : List ℝ) : 0 ≤ sumSq a := by
  rw [sumSq_eq_sum]
  apply List.sum_nonneg
  intro x hx
  obtain ⟨y, _, rfl⟩ := List.mem_map.mp hx
  exact mul_self_nonneg y

/-- Summed squares vanish exactly on the all-zero vector. -/
theorem sumSq_eq_zero_iff (a : List ℝ) : sumSq a = 0 ↔ ∀ x ∈ a, x = 0 := by
  induction a with
  | nil => simp [sumSq]
  | cons x l ih =>
    have h1 : sumSq (x :: l) = x * x + sumSq l := by
      rw [sumSq_eq_sum, sumSq_eq_sum, List.map_cons, List.sum_cons]
    rw [h1, add_eq_zero_iff_of_nonneg (mul_self_nonneg x) (sumSq_nonneg l)]
    simp [mul_self_eq_zero, ih]

/-- `clampScore` always lands in [1, 10]. -/
theorem clampScore_bounds (n : Nat) : 1 ≤ clampScore n ∧ clampScore n ≤ 10 := by
  unfold clampScore
  split <;> omega

/-- Every field of a parsed block is clamped into [1, 10]. -/
theorem parseBlock_bounds (b : List Char) :
    1 ≤ (parseBlock b).relevanceScore ∧ (parseBlock b).relevanceScore ≤ 10 ∧
    1 ≤ (parseBlock b).correctnessScore ∧ (parseBlock b).correctnessScore ≤ 10 ∧
    1 ≤ (parseBlock b).score ∧ (parseBlock b).score ≤ 10 := by
  unfold parseBlock
  dsimp only
  exact ⟨(clampScore_bounds _).1, (clampScore_bounds _).2, (clampScore_bounds _).1,
    (clampScore_bounds _).2, (clampScore_bounds _).1, (clampScore_bounds _).2⟩

/-- Whenever the `try` block of `evaluateAllAnswers` succeeds, it returns
exactly one entry per input pair, every score in [1, 10]. -/
theorem evaluateAllAnswersTry_ok (qaPairs : List QAPair) (ctx : JsText)
    (genResult : Except String String) (evals : List Evaluation)
    (h : evaluateAllAnswersTry qaPairs ctx genResult = .ok evals) :
    evals.length = qaPairs.length ∧
    ∀ ev ∈ evals,
      1 ≤ ev.relevanceScore ∧ ev.relevanceScore ≤ 10 ∧
      1 ≤ ev.correctnessScore ∧ ev.correctnessScore ≤ 10 ∧
      1 ≤ ev.score ∧ ev.score ≤ 10 := by
  unfold evaluateAllAnswersTry at h
  split at h
  · cases h
  · split at h
    · cases h
    · split at h
      · cases h
      · rename_i evaluationText
        split at h
        · cases h
        · dsimp only at h
          split at h
          · cases h
          · rw [Except.ok.injEq] at h
            subst h
            constructor
            · simp only [List.length_take, List.length_append,
                List.length_replicate, List.length_map]
              omega
            · intro ev hev
              have hmem := List.mem_of_mem_take hev
              rcases List.mem_append.mp hmem with hmap | hrep
              · obtain ⟨blk, _, rfl⟩ := List.mem_map.mp hmap
                exact parseBlock_bounds blk
              · rw [List.eq_of_mem_replicate hrep]
                refine ⟨?_, ?_, ?_, ?_, ?_, ?_⟩ <;> norm_num [missingEvaluation]

/-- Under valid input, the per-pair validation finds no offender. -/
theorem firstInvalidPair_none (qaPairs : List QAPair)
    (hvalid : ∀ qa ∈ qaPairs, qa.question.isStr = true ∧ qa.answer.isStr = true) :
    firstInvalidPair qaPairs = none := by
  unfold firstInvalidPair
  rw [List.findIdx?_eq_none_iff]
  intro qa hqa
  obtain ⟨h1, h2⟩ := hvalid qa hqa
  simp [h1, h2]

/-- Every entry of `validSims` is tagged with its original index, refers to a
chunk with a structurally valid embedding, and carries the similarity that
`cosineSimilarity` successfully returned for it. -/
theorem mem_validSims (q : List JsVal) (cl : List ChunkObj) (e : SimEntry)
    (he : e ∈ validSims q cl) :
    cl[e.index]? = some e.chunk ∧
    ∃ emb, e.chunk.embedding = some emb ∧
      cosineSimilarity (.arr q) (.arr emb) = .ok e.similarity := by
  unfold validSims at he
  obtain ⟨p, hp, hfp⟩ := List.mem_filterMap.mp he
  rcases p with ⟨i, c⟩
  dsimp only at hfp
  cases hemb : c.embedding with
  | none => rw [hemb] at hfp; cases hfp
  | some emb =>
    rw [hemb] at hfp
    dsimp only at hfp
    cases hcos : cosineSimilarity (.arr q) (.arr emb) with
    | error m => rw [hcos] at hfp; cases hfp
    | ok s =>
      rw [hcos] at hfp
      cases hfp
      exact ⟨List.mem_enum_iff_getElem?.mp hp, emb, hemb, hcos⟩

/-- `sliceGo` on the empty word list yields no window, whatever the fuel. -/
theorem sliceGo_nil {α : Type} (wpc fuel : Nat) :
    sliceGo wpc fuel ([] : List α) = [] := by
  cases fuel <;> rfl

/-- With sufficient fuel the windows concatenate back to the input: the slicing
is non-overlapping, loses no word and keeps input order. -/
theorem sliceGo_flatten {α : Type} (wpc : Nat) (hwpc : 1 ≤ wpc) :
    ∀ (fuel : Nat) (l : List α), l.length ≤ fuel →
      (sliceGo wpc fuel l).flatten = l := by
  intro fuel
  induction fuel with
  | zero =>
    intro l hl
    rw [List.length_eq_zero.mp (Nat.le_zero.mp hl), sliceGo_nil]
    rfl
  | succ fuel ih =>
    intro l hl
    cases l with
    | nil => rw [sliceGo_nil]; rfl
    | cons x xs =>
      obtain ⟨w, rfl⟩ : ∃ w, wpc = w + 1 :=
        ⟨wpc - 1, by omega⟩
      have hrec : (xs.drop (w + 1 - 1)).length ≤ fuel := by
        rw [List.length_drop]
        simp only [List.length_cons] at hl
        omega
      show ((x :: xs).take (w + 1) :: sliceGo (w + 1) fuel (xs.drop (w + 1 - 1))).flatten
        = x :: xs
      rw [List.flatten_cons, ih _ hrec, List.take_succ_cons]
      simp only [Nat.add_sub_cancel]
      rw [List.cons_append, List.take_append_drop]

/-- The unfolding equation of `sliceGo` on a non-empty list with fuel left. -/
theorem sliceGo_cons {α : Type} (wpc fuel : Nat) (x : α) (xs : List α) :
    sliceGo wpc (fuel + 1) (x :: xs) =
      (x :: xs).take wpc :: sliceGo wpc fuel (xs.drop (wpc - 1)) := rfl

/-- With sufficient fuel every window is non-empty and holds at most
`wordsPerChunk` words. -/
theorem sliceGo_window_sizes {α : Type} (wpc : Nat) (hwpc : 1 ≤ wpc) :
    ∀ (fuel : Nat) (l : List α), l.length ≤ fuel →
      ∀ w ∈ sliceGo wpc fuel l, w ≠ [] ∧ w.length ≤ wpc := by
  intro fuel
  induction fuel with
  | zero =>
    intro l hl
    rw [List.length_eq_zero.mp (Nat.le_zero.mp hl), sliceGo_nil]
    intro w hw
    cases hw
  | succ fuel ih =>
    intro l hl
    cases l with
    | nil => rw [sliceGo_nil]; intro w hw; cases hw
    | cons x xs =>
      intro w hw
      have hrec : (xs.drop (wpc - 1)).length ≤ fuel := by
        rw [List.length_drop]
        simp only [List.length_cons] at hl
        omega
      rw [sliceGo_cons] at hw
      rcases List.mem_cons.mp hw with rfl | hw
      · constructor
        · obtain ⟨v, rfl⟩ : ∃ v, wpc = v + 1 := ⟨wpc - 1, by omega⟩
          rw [List.take_succ_cons]
          exact List.cons_ne_nil _ _
        · rw [List.length_take]
          exact min_le_left _ _
      · exact ih _ hrec w hw

/-- With sufficient fuel every window except possibly the last holds exactly
`wordsPerChunk` words. -/
theorem sliceGo_dropLast_sizes {α : Type} (wpc : Nat) (hwpc : 1 ≤ wpc) :
    ∀ (fuel : Nat) (l : List α), l.length ≤ fuel →
      ∀ w ∈ (sliceGo wpc fuel l).dropLast, w.length = wpc := by
  intro fuel
  induction fuel with
  | zero =>
    intro l hl
    rw [List.length_eq_zero.mp (Nat.le_zero.mp hl), sliceGo_nil]
    intro w hw
    cases hw
  | succ fuel ih =>
    intro l hl
    cases l with
    | nil => rw [sliceGo_nil]; intro w hw; cases hw
    | cons x xs =>
      intro w hw
      have hrec : (xs.drop (wpc - 1)).length ≤ fuel := by
        rw [List.length_drop]
        simp only [List.length_cons] at hl
        omega
      rw [sliceGo_cons] at hw
      cases hrest : sliceGo wpc fuel (xs.drop (wpc - 1)) with
      | nil => rw [hrest] at hw; cases hw
      | cons r rs =>
        rw [hrest, List.dropLast_cons₂] at hw
        rcases List.mem_cons.mp hw with rfl | hw
        · -- the first window is full because a later window exists
          have hdrop_ne : xs.drop (wpc - 1) ≠ [] := by
            intro hnil
            rw [hnil, sliceGo_nil] at hrest
            cases hrest
          have hxs : wpc - 1 < xs.length := by
            by_contra hge
            exact hdrop_ne (List.drop_eq_nil_of_le (by omega))
          rw [List.length_take]
          simp only [List.length_cons]
          omega
        · exact ih _ hrec w (by rw [hrest]; exact hw)

/-- `splitOnChar` never returns the empty list of segments. -/
theorem splitOnChar_ne_nil (sep : Char) (l : List Char) :
    splitOnChar sep l ≠ [] := by
  induction l with
  | nil => exact List.cons_ne_nil _ _
  | cons c cs ih =>
    unfold splitOnChar
    split
    · exact List.cons_ne_nil _ _
    · cases h : splitOnChar sep cs with
      | nil => exact absurd h ih
      | cons w ws => exact List.cons_ne_nil _ _

/-- The unfolding equation of `splitOnChar` at a separator. -/
theorem splitOnChar_cons_sep (sep : Char) (cs : List Char) :
    splitOnChar sep (sep :: cs) = [] :: splitOnChar sep cs := by
  conv_lhs => unfold splitOnChar
  rw [if_pos rfl]

/-- `splitOnChar` on a list starting with a non-separator starts its first
segment with that character. -/
theorem splitOnChar_head_cons (sep d : Char) (l : List Char) (hd : d ≠ sep) :
    ∃ w ws, splitOnChar sep l = w :: ws ∧
      splitOnChar sep (d :: l) = (d :: w) :: ws := by
  cases h : splitOnChar sep l with
  | nil => exact absurd h (splitOnChar_ne_nil sep l)
  | cons w ws =>
    refine ⟨w, ws, rfl, ?_⟩
    unfold splitOnChar
    rw [if_neg hd, h]

/-- No segment produced by `splitOnChar` contains the separator. -/
theorem splitOnChar_not_mem (sep : Char) :
    ∀ (l : List Char), ∀ t ∈ splitOnChar sep l, sep ∉ t := by
  intro l
  induction l with
  | nil =>
    intro t ht
    rcases List.mem_cons.mp ht with rfl | ht
    · simp
    · simp at ht
  | cons c cs ih =>
    intro t ht
    by_cases hc : c = sep
    · subst hc
      rw [splitOnChar_cons_sep] at ht
      rcases List.mem_cons.mp ht with rfl | ht
      · simp
      · exact ih t ht
    · obtain ⟨w, ws, hsplit, hcons⟩ :=
        splitOnChar_head_cons sep c cs hc
      rw [hcons] at ht
      rcases List.mem_cons.mp ht with rfl | ht
      · intro hmem
        rcases List.mem_cons.mp hmem with hmem | hmem
        · exact hc hmem.symm
        · exact ih w (by rw [hsplit]; exact List.mem_cons_self _ _) hmem
      · exact ih t (by rw [hsplit]; exact List.mem_cons_of_mem _ ht)

/-- Every character of a `splitOnChar` segment comes from the input. -/
theorem splitOnChar_subset (sep : Char) :
    ∀ (l : List Char), ∀ t ∈ splitOnChar sep l, ∀ c ∈ t, c ∈ l := by
  intro l
  induction l with
  | nil =>
    intro t ht c hc
    rcases List.mem_cons.mp ht with rfl | ht
    · simp at hc
    · simp at ht
  | cons d cs ih =>
    intro t ht c hc
    by_cases hd : d = sep
    · subst hd
      rw [splitOnChar_cons_sep] at ht
      rcases List.mem_cons.mp ht with rfl | ht
      · simp at hc
      · exact List.mem_cons_of_mem _ (ih t ht c hc)
    · obtain ⟨w, ws, hsplit, hcons⟩ :=
        splitOnChar_head_cons sep d cs hd
      rw [hcons] at ht
      rcases List.mem_cons.mp ht with rfl | ht
      · rcases List.mem_cons.mp hc with rfl | hc
        · exact List.mem_cons_self _ _
        · exact List.mem_cons_of_mem _
            (ih w (by rw [hsplit]; exact List.mem_cons_self _ _) c hc)
      · exact List.mem_cons_of_mem _
          (ih t (by rw [hsplit]; exact List.mem_cons_of_mem _ ht) c hc)

/-- The head of an append with a non-empty left part. -/
theorem head?_append_left {α : Type} (l1 l2 : List α) (h : l1 ≠ []) :
    (l1 ++ l2).head? = l1.head? := by
  cases l1 with
  | nil => exact absurd rfl h
  | cons a as => rfl

/-- In a list that does not end with the separator and has no two adjacent
separators, every segment after the first is non-empty. -/
theorem splitOnChar_tail_ne_nil (sep : Char) :
    ∀ (l : List Char), l.getLast? ≠ some sep →
      l.Chain' (fun a b => ¬(a = sep ∧ b = sep)) →
      ∀ t ∈ (splitOnChar sep l).tail, t ≠ [] := by
  intro l
  induction l with
  | nil =>
    intro _ _ t ht
    simp [splitOnChar] at ht
  | cons c cs ih =>
    intro hlast hchain t ht
    by_cases hc : c = sep
    · subst hc
      rw [splitOnChar_cons_sep, List.tail_cons] at ht
      cases cs with
      | nil => exact absurd rfl hlast
      | cons d ds =>
        have hd : d ≠ c := by
          intro hdsep
          exact (List.chain'_cons.mp hchain).1 ⟨rfl, hdsep⟩
        obtain ⟨w, ws, hsplit, hcons⟩ := splitOnChar_head_cons c d ds hd
        rw [hcons] at ht
        rcases List.mem_cons.mp ht with rfl | ht
        · exact List.cons_ne_nil _ _
        · rw [List.getLast?_cons_cons] at hlast
          exact ih hlast (List.chain'_cons.mp hchain).2 t
            (by rw [hcons, List.tail_cons]; exact ht)
    · obtain ⟨w, ws, hsplit, hcons⟩ := splitOnChar_head_cons sep c cs hc
      rw [hcons, List.tail_cons] at ht
      cases cs with
      | nil =>
        rw [show splitOnChar sep ([] : List Char) = [[]] from rfl] at hsplit
        cases hsplit
        simp at ht
      | cons d ds =>
        rw [List.getLast?_cons_cons] at hlast
        exact ih hlast ((List.chain'_cons'.mp hchain).2) t
          (by rw [hsplit, List.tail_cons]; exact ht)

/-- In a non-empty list that neither starts nor ends with the separator and
has no two adjacent separators, every segment is non-empty. -/
theorem splitOnChar_all_ne_nil (sep : Char) (l : List Char) (hne : l ≠ [])
    (hhead : l.head? ≠ some sep) (hlast : l.getLast? ≠ some sep)
    (hchain : l.Chain' fun a b => ¬(a = sep ∧ b = sep)) :
    ∀ t ∈ splitOnChar sep l, t ≠ [] := by
  cases l with
  | nil => exact absurd rfl hne
  | cons c cs =>
    have hc : c ≠ sep := by
      intro h
      exact hhead (by rw [h]; rfl)
    obtain ⟨w, ws, hsplit, hcons⟩ := splitOnChar_head_cons sep c cs hc
    intro t ht
    rw [hcons] at ht
    rcases List.mem_cons.mp ht with rfl | ht
    · exact List.cons_ne_nil _ _
    · exact splitOnChar_tail_ne_nil sep (c :: cs) hlast hchain t
        (by rw [hcons, List.tail_cons]; exact ht)

/-- Joining non-empty words gives a non-empty string. -/
theorem joinWords_ne_nil :
    ∀ (l : List (List Char)), (∀ u ∈ l, u ≠ []) → l ≠ [] →
      joinWords l ≠ [] := by
  intro l
  cases l with
  | nil => intro _ h; exact absurd rfl h
  | cons w ws =>
    cases ws with
    | nil =>
      intro hu _
      exact hu w (List.mem_cons_self _ _)
    | cons v vs =>
      intro hu _
      show w ++ ' ' :: joinWords (v :: vs) ≠ []
      simp

/-- The first character of a join of non-empty whitespace-free words is not
whitespace. -/
theorem joinWords_head_not_ws :
    ∀ (l : List (List Char)),
      (∀ u ∈ l, u ≠ [] ∧ ∀ c ∈ u, ¬c.isWhitespace) →
      ∀ c, (joinWords l).head? = some c → ¬c.isWhitespace := by
  intro l
  cases l with
  | nil => intro _ c hc; simp [joinWords] at hc
  | cons w ws =>
    cases ws with
    | nil =>
      intro hu c hc
      have hw := hu w (List.mem_cons_self _ _)
      exact hw.2 c (List.mem_of_mem_head?
        (show c ∈ w.head? by rw [show w.head? = (joinWords [w]).head? from rfl, hc]; rfl))
    | cons v vs =>
      intro hu c hc
      have hw := hu w (List.mem_cons_self _ _)
      rw [show joinWords (w :: v :: vs) = w ++ ' ' :: joinWords (v :: vs) from rfl,
        head?_append_left _ _ hw.1] at hc
      exact hw.2 c (List.mem_of_mem_head? (show c ∈ w.head? by rw [hc]; rfl))

/-- The last character of a join of non-empty whitespace-free words is not
whitespace. -/
theorem joinWords_last_not_ws :
    ∀ (l : List (List Char)),
      (∀ u ∈ l, u ≠ [] ∧ ∀ c ∈ u, ¬c.isWhitespace) →
      ∀ c, (joinWords l).getLast? = some c → ¬c.isWhitespace := by
  intro l
  induction l with
  | nil => intro _ c hc; simp [joinWords] at hc
  | cons w ws ih =>
    cases ws with
    | nil =>
      intro hu c hc
      have hw := hu w (List.mem_cons_self _ _)
      rw [show joinWords [w] = w from rfl] at hc
      exact hw.2 c (List.mem_of_mem_getLast? (show c ∈ w.getLast? by rw [hc]; rfl))
    | cons v vs =>
      intro hu c hc
      have hjne : joinWords (v :: vs) ≠ [] :=
        joinWords_ne_nil (v :: vs)
          (fun u hu2 => (hu u (List.mem_cons_of_mem _ hu2)).1) (List.cons_ne_nil _ _)
      rw [show joinWords (w :: v :: vs) = w ++ ' ' :: joinWords (v :: vs) from rfl,
        List.getLast?_append_of_ne_nil _ (List.cons_ne_nil _ _)] at hc
      cases hj : joinWords (v :: vs) with
      | nil => exact absurd hj hjne
      | cons a as =>
        rw [hj, List.getLast?_cons_cons] at hc
        exact ih (fun u hu2 => hu u (List.mem_cons_of_mem _ hu2)) c
          (by rw [hj]; exact hc)

/-- A separator-free string splits into the single segment it is. -/
theorem splitOnChar_no_sep (sep : Char) :
    ∀ (t : List Char), sep ∉ t → splitOnChar sep t = [t] := by
  intro t
  induction t with
  | nil => intro _; rfl
  | cons c cs ih =>
    intro hmem
    have hc : c ≠ sep := fun h => hmem (by rw [h]; exact List.mem_cons_self _ _)
    have hcs : sep ∉ cs := fun h => hmem (List.mem_cons_of_mem _ h)
    obtain ⟨w, ws, hsplit, hcons⟩ := splitOnChar_head_cons sep c cs hc
    rw [hcons]
    rw [ih hcs] at hsplit
    cases hsplit
    rfl

/-- Splitting at an explicit separator after a separator-free prefix. -/
theorem splitOnChar_append_sep (sep : Char) (rest : List Char) :
    ∀ (t : List Char), sep ∉ t →
      splitOnChar sep (t ++ sep :: rest) = t :: splitOnChar sep rest := by
  intro t
  induction t with
  | nil =>
    intro _
    simp only [List.nil_append]
    exact splitOnChar_cons_sep sep rest
  | cons c cs ih =>
    intro hmem
    have hc : c ≠ sep := fun h => hmem (by rw [h]; exact List.mem_cons_self _ _)
    have hcs : sep ∉ cs := fun h => hmem (List.mem_cons_of_mem _ h)
    obtain ⟨w, ws, hsplit, hcons⟩ :=
      splitOnChar_head_cons sep c (cs ++ sep :: rest) hc
    rw [show (c :: cs) ++ sep :: rest = c :: (cs ++ sep :: rest) from rfl, hcons]
    rw [ih hcs] at hsplit
    cases hsplit
    rfl

/-- Splitting the join of space-free words recovers the words. -/
theorem splitOnChar_joinWords :
    ∀ (l : List (List Char)), (∀ u ∈ l, (' ' : Char) ∉ u) → l ≠ [] →
      splitOnChar ' ' (joinWords l) = l := by
  intro l
  induction l with
  | nil => intro _ h; exact absurd rfl h
  | cons w ws ih =>
    cases ws with
    | nil =>
      intro hu _
      exact splitOnChar_no_sep ' ' w (hu w (List.mem_cons_self _ _))
    | cons v vs =>
      intro hu _
      show splitOnChar ' ' (w ++ ' ' :: joinWords (v :: vs)) = w :: v :: vs
      rw [splitOnChar_append_sep ' ' (joinWords (v :: vs)) w
        (hu w (List.mem_cons_self _ _))]
      rw [ih (fun u h => hu u (List.mem_cons_of_mem _ h)) (List.cons_ne_nil _ _)]

/-- Whitespace surviving the `\s+ → ' '` pass is a plain space. -/
theorem collapseWsGo_ws_eq_space :
    ∀ (l : List Char) (b : Bool), ∀ c ∈ collapseWsGo b l,
      c.isWhitespace → c = ' ' := by
  intro l
  induction l with
  | nil => intro b c hc; simp [collapseWsGo] at hc
  | cons x xs ih =>
    intro b c hc hws
    unfold collapseWsGo at hc
    split at hc
    · split at hc
      · exact ih true c hc hws
      · rcases List.mem_cons.mp hc with rfl | hc
        · rfl
        · exact ih true c hc hws
    · rename_i hxws
      rcases List.mem_cons.mp hc with rfl | hc
      · exact absurd hws (by simpa using hxws)
      · exact ih false c hc hws

/-- The `\s+ → ' '` pass leaves no two adjacent whitespace characters, and in
skip mode its output never starts with whitespace. -/
theorem collapseWsGo_props :
    ∀ (l : List Char),
      (∀ b, (collapseWsGo b l).Chain' fun a d => ¬(a.isWhitespace ∧ d.isWhitespace)) ∧
      (∀ c, (collapseWsGo true l).head? = some c → ¬c.isWhitespace) := by
  intro l
  induction l with
  | nil =>
    constructor
    · intro b; simp [collapseWsGo]
    · intro c hc; simp [collapseWsGo] at hc
  | cons x xs ih =>
    obtain ⟨ihchain, ihhead⟩ := ih
    by_cases hx : x.isWhitespace
    · have htrue : collapseWsGo true (x :: xs) = collapseWsGo true xs := by
        simp [collapseWsGo, hx]
      have hfalse : collapseWsGo false (x :: xs) = ' ' :: collapseWsGo true xs := by
        simp [collapseWsGo, hx]
      constructor
      · intro b
        cases b with
        | true => rw [htrue]; exact ihchain true
        | false =>
          rw [hfalse]
          apply List.chain'_cons'.mpr
          constructor
          · intro y hy hcontra
            exact ihhead y hy hcontra.2
          · exact ihchain true
      · intro c hc
        rw [htrue] at hc
        exact ihhead c hc
    · have heq : ∀ b, collapseWsGo b (x :: xs) = x :: collapseWsGo false xs := by
        intro b; simp [collapseWsGo, hx]
      constructor
      · intro b
        rw [heq b]
        apply List.chain'_cons'.mpr
        refine ⟨?_, ihchain false⟩
        intro y _ hcontra
        exact hx hcontra.1
      · intro c hc
        rw [heq true, List.head?_cons] at hc
        cases hc
        exact hx

/-- The `\n+ → '\n'` pass is the identity on newline-free input. -/
theorem collapseNlGo_id :
    ∀ (l : List Char), ('\n' : Char) ∉ l → collapseNlGo false l = l := by
  intro l
  induction l with
  | nil => intro _; rfl
  | cons x xs ih =>
    intro hmem
    have hx : x ≠ '\n' := fun h => hmem (by rw [h]; exact List.mem_cons_self _ _)
    simp [collapseNlGo, hx, ih fun h => hmem (List.mem_cons_of_mem _ h)]

/-- The `\s+ → ' '` pass leaves no newline. -/
theorem no_nl_collapseWsGo (l : List Char) (b : Bool) :
    ('\n' : Char) ∉ collapseWsGo b l := by
  intro hmem
  have := collapseWsGo_ws_eq_space l b '\n' hmem (by decide)
  exact absurd this (by decide)

/-- The head of `dropWhile` fails the predicate. -/
theorem head?_dropWhile_not {α : Type} (p : α → Bool) :
    ∀ (l : List α) (c : α), (l.dropWhile p).head? = some c → p c = false := by
  intro l
  induction l with
  | nil => intro c hc; simp at hc
  | cons x xs ih =>
    intro c hc
    rw [List.dropWhile_cons] at hc
    split at hc
    · exact ih c hc
    · rename_i hpx
      rw [List.head?_cons] at hc
      cases hc
      simpa using hpx

/-- `dropWhile` preserves `Chain'`. -/
theorem chain'_dropWhile {α : Type} (R : α → α → Prop) (p : α → Bool) :
    ∀ (l : List α), l.Chain' R → (l.dropWhile p).Chain' R := by
  intro l
  induction l with
  | nil => intro _; simp
  | cons x xs ih =>
    intro hchain
    rw [List.dropWhile_cons]
    split
    · exact ih hchain.tail
    · exact hchain

/-- Membership in `dropWhile` implies membership in the list. -/
theorem mem_of_mem_dropWhile {α : Type} (p : α → Bool) :
    ∀ (l : List α), ∀ c ∈ l.dropWhile p, c ∈ l := by
  intro l
  induction l with
  | nil => intro c hc; simp at hc
  | cons x xs ih =>
    intro c hc
    rw [List.dropWhile_cons] at hc
    split at hc
    · exact List.mem_cons_of_mem _ (ih c hc)
    · exact hc

/-- `dropTrailingWs` preserves the head. -/
theorem dropTrailingWs_head? :
    ∀ (l : List Char) (c : Char),
      (dropTrailingWs l).head? = some c → l.head? = some c := by
  intro l
  induction l with
  | nil => intro c hc; simp [dropTrailingWs] at hc
  | cons x xs _ =>
    intro c hc
    unfold dropTrailingWs at hc
    cases h : dropTrailingWs xs with
    | nil =>
      rw [h] at hc
      dsimp only at hc
      split at hc
      · simp at hc
      · rw [List.head?_cons] at hc
        cases hc
        rfl
    | cons y ys =>
      rw [h] at hc
      dsimp only at hc
      rw [List.head?_cons] at hc
      cases hc
      rfl

/-- The last character surviving `dropTrailingWs` is not whitespace. -/
theorem dropTrailingWs_getLast_not_ws :
    ∀ (l : List Char) (c : Char),
      (dropTrailingWs l).getLast? = some c → ¬c.isWhitespace := by
  intro l
  induction l with
  | nil => intro c hc; simp [dropTrailingWs] at hc
  | cons x xs ih =>
    intro c hc
    unfold dropTrailingWs at hc
    cases h : dropTrailingWs xs with
    | nil =>
      rw [h] at hc
      dsimp only at hc
      split at hc
      · simp at hc
      · rename_i hx
        rw [show ([x] : List Char).getLast? = some x from rfl] at hc
        cases hc
        simpa using hx
    | cons y ys =>
      rw [h] at hc
      dsimp only at hc
      rw [List.getLast?_cons_cons] at hc
      exact ih c (by rw [h]; exact hc)

/-- `dropTrailingWs` preserves `Chain'`. -/
theorem dropTrailingWs_chain (R : Char → Char → Prop) :
    ∀ (l : List Char), l.Chain' R → (dropTrailingWs l).Chain' R := by
  intro l
  induction l with
  | nil => intro _; simp [dropTrailingWs]
  | cons x xs ih =>
    intro hchain
    unfold dropTrailingWs
    cases h : dropTrailingWs xs with
    | nil =>
      dsimp only
      split
      · simp
      · simp
    | cons y ys =>
      dsimp only
      apply List.chain'_cons'.mpr
      constructor
      · intro z hz
        have hz2 : z = y := by
          rw [List.head?_cons] at hz
          exact (Option.some_inj.mp hz).symm
        subst hz2
        have hxy : xs.head? = some z := dropTrailingWs_head? xs z (by rw [h]; rfl)
        exact (List.chain'_cons'.mp hchain).1 z hxy
      · rw [← h]
        exact ih hchain.tail

/-- Membership in `dropTrailingWs` implies membership in the list. -/
theorem mem_of_mem_dropTrailingWs :
    ∀ (l : List Char), ∀ c ∈ dropTrailingWs l, c ∈ l := by
  intro l
  induction l with
  | nil => intro c hc; simp [dropTrailingWs] at hc
  | cons x xs ih =>
    intro c hc
    unfold dropTrailingWs at hc
    cases h : dropTrailingWs xs with
    | nil =>
      rw [h] at hc
      dsimp only at hc
      split at hc
      · simp at hc
      · rcases List.mem_cons.mp hc with rfl | hc
        · exact List.mem_cons_self _ _
        · simp at hc
    | cons y ys =>
      rw [h] at hc
      dsimp only at hc
      rcases List.mem_cons.mp hc with rfl | hc
      · exact List.mem_cons_self _ _
      · exact List.mem_cons_of_mem _ (ih c (by rw [h]; exact hc))

/-- `dropTrailingWs` is the identity when the last character is not
whitespace. -/
theorem dropTrailingWs_eq_self :
    ∀ (l : List Char), (∀ c, l.getLast? = some c → ¬c.isWhitespace) →
      dropTrailingWs l = l := by
  intro l
  induction l with
  | nil => intro _; rfl
  | cons x xs ih =>
    intro h
    unfold dropTrailingWs
    cases xs with
    | nil =>
      dsimp only [dropTrailingWs]
      rw [if_neg]
      simpa using h x rfl
    | cons y ys =>
      have hdtw : dropTrailingWs (y :: ys) = y :: ys :=
        ih fun c hc => h c (by rw [List.getLast?_cons_cons]; exact hc)
      rw [hdtw]

/-- The first character surviving `trimChars` is not whitespace. -/
theorem trimChars_head_not_ws (l : List Char) (c : Char)
    (hc : (trimChars l).head? = some c) : ¬c.isWhitespace := by
  unfold trimChars at hc
  have h2 := dropTrailingWs_head? _ c hc
  simpa using head?_dropWhile_not Char.isWhitespace l c h2

/-- The last character surviving `trimChars` is not whitespace. -/
theorem trimChars_last_not_ws (l : List Char) (c : Char)
    (hc : (trimChars l).getLast? = some c) : ¬c.isWhitespace :=
  dropTrailingWs_getLast_not_ws _ c hc

/-- `trimChars` preserves `Chain'`. -/
theorem trimChars_chain (R : Char → Char → Prop) (l : List Char)
    (h : l.Chain' R) : (trimChars l).Chain' R :=
  dropTrailingWs_chain R _ (chain'_dropWhile R _ l h)

/-- Membership in `trimChars` implies membership in the list. -/
theorem mem_of_mem_trimChars (l : List Char) :
    ∀ c ∈ trimChars l, c ∈ l := fun c hc =>
  mem_of_mem_dropWhile _ l c (mem_of_mem_dropTrailingWs _ c hc)

/-- `trimChars` is the identity when neither end is whitespace. -/
theorem trimChars_eq_self (l : List Char)
    (hhead : ∀ c, l.head? = some c → ¬c.isWhitespace)
    (hlast : ∀ c, l.getLast? = some c → ¬c.isWhitespace) :
    trimChars l = l := by
  unfold trimChars
  have hdrop : l.dropWhile Char.isWhitespace = l := by
    cases l with
    | nil => rfl
    | cons x xs =>
      rw [List.dropWhile_cons, if_neg]
      simpa using hhead x rfl
  rw [hdrop]
  exact dropTrailingWs_eq_self l hlast

/-- After the whitespace pass the newline pass is a no-op, so cleaning is
collapse-then-trim. -/
theorem cleanChars_eq (l : List Char) :
    cleanChars l = trimChars (collapseWsGo false l) := by
  unfold cleanChars
  rw [collapseNlGo_id _ (no_nl_collapseWsGo l false)]

/-- Any whitespace character of the cleaned text is a plain space. -/
theorem cleanChars_ws_eq_space (l : List Char) :
    ∀ c ∈ cleanChars l, c.isWhitespace → c = ' ' := by
  rw [cleanChars_eq]
  intro c hc
  exact collapseWsGo_ws_eq_space l false c (mem_of_mem_trimChars _ c hc)

/-- The cleaned text has no two adjacent spaces. -/
theorem cleanChars_chain_space (l : List Char) :
    (cleanChars l).Chain' fun a b => ¬(a = ' ' ∧ b = ' ') := by
  rw [cleanChars_eq]
  apply List.Chain'.imp ?_ (trimChars_chain _ _ ((collapseWsGo_props l).1 false))
  intro a b hR hab
  exact hR ⟨by rw [hab.1]; decide, by rw [hab.2]; decide⟩

/-- The cleaned text does not start with a space. -/
theorem cleanChars_head_ne_space (l : List Char) :
    (cleanChars l).head? ≠ some ' ' := by
  intro h
  rw [cleanChars_eq] at h
  exact trimChars_head_not_ws _ ' ' h (by decide)

/-- The cleaned text does not end with a space. -/
theorem cleanChars_last_ne_space (l : List Char) :
    (cleanChars l).getLast? ≠ some ' ' := by
  intro h
  rw [cleanChars_eq] at h
  exact trimChars_last_not_ws _ ' ' h (by decide)

/-- Every word of a non-empty cleaned text is non-empty and whitespace-free. -/
theorem wordsOfCleaned_props (text : String) (hne : cleanChars text.data ≠ []) :
    ∀ t ∈ wordsOfCleaned text, t ≠ [] ∧ ∀ c ∈ t, ¬c.isWhitespace := by
  intro t ht
  constructor
  · exact splitOnChar_all_ne_nil ' ' _ hne (cleanChars_head_ne_space _)
      (cleanChars_last_ne_space _) (cleanChars_chain_space _) t ht
  · intro c hc hws
    have hmem : c ∈ cleanChars text.data := splitOnChar_subset ' ' _ t ht c hc
    have hspace := cleanChars_ws_eq_space _ c hmem hws
    exact splitOnChar_not_mem ' ' _ t ht (hspace ▸ hc)

/-- A `filterMap` of an if-some-else-none is a filter followed by a map. -/
theorem filterMap_if_eq_filter_map {α β : Type} (p : α → Prop) [DecidablePred p]
    (f : α → β) (l : List α) :
    (l.filterMap fun x => if p x then some (f x) else none) =
      (l.filter fun x => decide (p x)).map f := by
  induction l with
  | nil => rfl
  | cons x xs ih =>
    by_cases hx : p x
    · simp [List.filterMap_cons, List.filter_cons, hx, ih]
    · simp [List.filterMap_cons, List.filter_cons, hx, ih]

/-- The two halves of a filter partition sum to the whole. -/
theorem sum_map_filter_partition {α : Type} (p : α → Bool) (f : α → Nat) :
    ∀ (l : List α),
      ((l.filter p).map f).sum + ((l.filter fun x => !p x).map f).sum =
        (l.map f).sum := by
  intro l
  induction l with
  | nil => rfl
  | cons x xs ih =>
    cases hx : p x with
    | true =>
      simp only [List.filter_cons, hx, Bool.not_true, if_true, if_false,
        List.map_cons, List.sum_cons, List.map, Bool.false_eq_true]
      omega
    | false =>
      simp only [List.filter_cons, hx, Bool.not_false, if_true, if_false,
        List.map_cons, List.sum_cons, List.map, Bool.false_eq_true]
      omega

/-- A flatten of non-empty lists equal to a singleton comes from the singleton
window. -/
theorem flatten_eq_singleton {α : Type} (a : α) :
    ∀ (L : List (List α)), L.flatten = [a] → (∀ w ∈ L, w ≠ []) → L = [[a]] := by
  intro L
  induction L with
  | nil => intro h _; cases h
  | cons w rest ih =>
    intro hflat hne
    rw [List.flatten_cons] at hflat
    cases w with
    | nil => exact absurd rfl (hne [] (List.mem_cons_self _ _))
    | cons b bs =>
      rw [List.cons_append] at hflat
      injection hflat with h1 h2
      subst h1
      rw [List.append_eq_nil] at h2
      obtain ⟨rfl, hrest⟩ := h2
      cases rest with
      | nil => rfl
      | cons r rs =>
        rw [List.flatten_cons, List.append_eq_nil] at hrest
        exact absurd hrest.1
          (hne r (List.mem_cons_of_mem _ (List.mem_cons_self _ _)))

/-! # Theorems -/

/-- C1: for every non-empty list of string question/answer pairs and any
generation outcome, `evaluateAllAnswers` returns exactly one entry per input
pair with every score an integer in [1, 10]; and if the generation call
failed irrecoverably, every entry is the 1/1/1 fallback whose feedback
explains the error message. -/
theorem evaluateAllAnswers_spec (qaPairs : List QAPair) (ctx : JsText)
    (genResult : Except String String) (hne : qaPairs ≠ [])
    (hvalid : ∀ qa ∈ qaPairs, qa.question.isStr = true ∧ qa.answer.isStr = true) :
    (evaluateAllAnswers qaPairs ctx genResult).length = qaPairs.length ∧
    (∀ ev ∈ evaluateAllAnswers qaPairs ctx genResult,
      1 ≤ ev.relevanceScore ∧ ev.relevanceScore ≤ 10 ∧
      1 ≤ ev.correctnessScore ∧ ev.correctnessScore ≤ 10 ∧
      1 ≤ ev.score ∧ ev.score ≤ 10) ∧
    (∀ msg, genResult = .error msg →
      evaluateAllAnswers qaPairs ctx genResult =
        qaPairs.enum.map fun p => criticalEvaluation msg p.1) := by
  have hlen0 : qaPairs.length ≠ 0 := by simpa [List.length_eq_zero] using hne
  have hfi := firstInvalidPair_none qaPairs hvalid
  cases h : evaluateAllAnswersTry qaPairs ctx genResult with
  | ok evals =>
    obtain ⟨hlen, hmem⟩ := evaluateAllAnswersTry_ok qaPairs ctx genResult evals h
    unfold evaluateAllAnswers
    rw [h]
    refine ⟨hlen, hmem, ?_⟩
    intro msg hmsg
    exfalso
    rw [hmsg] at h
    unfold evaluateAllAnswersTry at h
    rw [if_neg hlen0, hfi] at h
    cases h
  | error e =>
    unfold evaluateAllAnswers
    rw [h]
    refine ⟨by simp [List.enum_length], ?_, ?_⟩
    · intro ev hev
      obtain ⟨p, _, rfl⟩ := List.mem_map.mp hev
      refine ⟨?_, ?_, ?_, ?_, ?_, ?_⟩ <;> norm_num [criticalEvaluation]
    · intro msg hmsg
      rw [hmsg] at h
      unfold evaluateAllAnswersTry at h
      rw [if_neg hlen0, hfi] at h
      cases h
      rfl

/-- C1 witness: a single valid pair with an irrecoverably failed generation
call still yields one in-range entry, the 1/1/1 fallback explaining "boom". -/
theorem evaluateAllAnswers_spec_witness :
    (evaluateAllAnswers [goodPair] (JsText.str "ctx") (.error "boom")).length =
      [goodPair].length ∧
    (∀ ev ∈ evaluateAllAnswers [goodPair] (JsText.str "ctx") (.error "boom"),
      1 ≤ ev.relevanceScore ∧ ev.relevanceScore ≤ 10 ∧
      1 ≤ ev.correctnessScore ∧ ev.correctnessScore ≤ 10 ∧
      1 ≤ ev.score ∧ ev.score ≤ 10) ∧
    (∀ msg, (Except.error "boom" : Except String String) = .error msg →
      evaluateAllAnswers [goodPair] (JsText.str "ctx") (.error "boom") =
        [goodPair].enum.map fun p => criticalEvaluation msg p.1) :=
  evaluateAllAnswers_spec [goodPair] (JsText.str "ctx") (.error "boom")
    (List.cons_ne_nil _ _) (by decide)

/-- C6 counterexample: a pair whose answer is not a string does raise the
validation error inside the `try` block, but the outer catch swallows it: the
caller of `evaluateAllAnswers` receives an ordinary one-entry result list
(the 1/1/1 fallback quoting the validation message), not a hard error. -/
theorem evaluateAllAnswers_hard_error_counterexample :
    evaluateAllAnswersTry [badPair] (JsText.str "ctx")
      (.ok "Question 1: Relevance: 9/10") = .error (invalidPairMsg 0) ∧
    evaluateAllAnswers [badPair] (JsText.str "ctx")
      (.ok "Question 1: Relevance: 9/10") = [criticalEvaluation (invalidPairMsg 0) 0] :=
  ⟨rfl, rfl⟩

/-- C6 (amended): `evaluateAll` raises `ValidationError` internally when the
input list is empty or an entry lacks a string question or answer, and
`EvaluationParseError` internally when parsing yields zero blocks — but these
errors do not propagate to the caller as hard failures: the surrounding
total-failure fallback catches them and the caller receives one 1/1/1
fallback entry per input pair (the empty list for empty input) whose
feedback quotes the internal error message. -/
theorem evaluateAllAnswers_swallows_internal_errors :
    (∀ (ctx : JsText) (gen : Except String String),
      evaluateAllAnswersTry [] ctx gen = .error emptyPairsMsg ∧
      evaluateAllAnswers [] ctx gen = []) ∧
    (∀ (qaPairs : List QAPair) (ctx : JsText) (gen : Except String String)
      (idx : Nat), qaPairs.length ≠ 0 → firstInvalidPair qaPairs = some idx →
      evaluateAllAnswersTry qaPairs ctx gen = .error (invalidPairMsg idx) ∧
      evaluateAllAnswers qaPairs ctx gen =
        qaPairs.enum.map fun p => criticalEvaluation (invalidPairMsg idx) p.1) ∧
    (∀ (qaPairs : List QAPair) (ctx : JsText) (text : String),
      qaPairs.length ≠ 0 → firstInvalidPair qaPairs = none → trimChars text.data ≠ [] →
      questionBlocks text = [] →
      evaluateAllAnswersTry qaPairs ctx (.ok text) = .error parseFailMsg ∧
      evaluateAllAnswers qaPairs ctx (.ok text) =
        qaPairs.enum.map fun p => criticalEvaluation parseFailMsg p.1) := by
  refine ⟨?_, ?_, ?_⟩
  · intro ctx gen
    have h : evaluateAllAnswersTry [] ctx gen = .error emptyPairsMsg := by
      unfold evaluateAllAnswersTry
      rw [if_pos (show ([] : List QAPair).length = 0 from rfl)]
    refine ⟨h, ?_⟩
    unfold evaluateAllAnswers
    rw [h]
    rfl
  · intro qaPairs ctx gen idx hlen hidx
    have h : evaluateAllAnswersTry qaPairs ctx gen = .error (invalidPairMsg idx) := by
      unfold evaluateAllAnswersTry
      rw [if_neg hlen, hidx]
    refine ⟨h, ?_⟩
    unfold evaluateAllAnswers
    rw [h]
  · intro qaPairs ctx text hlen hfi htrim hblocks
    have h : evaluateAllAnswersTry qaPairs ctx (.ok text) = .error parseFailMsg := by
      unfold evaluateAllAnswersTry
      rw [if_neg hlen, hfi]
      dsimp only
      rw [if_neg htrim, hblocks]
      rfl
    refine ⟨h, ?_⟩
    unfold evaluateAllAnswers
    rw [h]

/-- C6 witness: a valid pair with the response "Question 1:" (whose split
yields zero non-empty blocks) raises the parse error internally, and the
caller receives the one-entry fallback list. -/
theorem evaluateAllAnswers_swallows_internal_errors_witness :
    evaluateAllAnswersTry [goodPair] (JsText.str "ctx") (.ok "Question 1:") =
      .error parseFailMsg ∧
    evaluateAllAnswers [goodPair] (JsText.str "ctx") (.ok "Question 1:") =
      [goodPair].enum.map fun p => criticalEvaluation parseFailMsg p.1 :=
  evaluateAllAnswers_swallows_internal_errors.2.2 [goodPair] (JsText.str "ctx")
    "Question 1:" (by decide) (by decide) (by decide) (by decide)

/-- C3: for a valid non-empty query vector, non-empty chunk list and integer
`topK ≥ 1`, `findSimilarChunks` returns a list sorted descending by
similarity with exactly `min(topK, validChunkCount)` entries (hence never
more), each tagged with its original index in the input list and derived from
a chunk whose embedding is structurally valid and for which
`cosineSimilarity` succeeded; and it returns the empty list — not a failure —
whenever the query vector or the chunk list is missing, not an array, or
empty. -/
theorem findSimilarChunks_spec :
    (∀ (q : List JsVal) (cl : List ChunkObj) (k : Int), q ≠ [] → cl ≠ [] →
      1 ≤ k →
      List.Sorted (fun a b : SimEntry => b.similarity ≤ a.similarity)
        (findSimilarChunks (.arr q) (some cl) (some k)) ∧
      (findSimilarChunks (.arr q) (some cl) (some k)).length =
        min k.toNat (validSims q cl).length ∧
      (∀ e ∈ findSimilarChunks (.arr q) (some cl) (some k),
        cl[e.index]? = some e.chunk ∧
        ∃ emb, e.chunk.embedding = some emb ∧
          cosineSimilarity (.arr q) (.arr emb) = .ok e.similarity)) ∧
    (∀ (cs : Option (List ChunkObj)) (t : Option Int),
      findSimilarChunks .nonArr cs t = []) ∧
    (∀ (cs : Option (List ChunkObj)) (t : Option Int),
      findSimilarChunks (.arr []) cs t = []) ∧
    (∀ (v : JsArg) (t : Option Int), findSimilarChunks v none t = []) ∧
    (∀ (v : JsArg) (t : Option Int), findSimilarChunks v (some []) t = []) := by
  refine ⟨?_, ?_, ?_, ?_, ?_⟩
  · intro q cl k hq hcl hk
    have hqlen : ¬q.length = 0 := by simpa [List.length_eq_zero] using hq
    have hcllen : ¬cl.length = 0 := by simpa [List.length_eq_zero] using hcl
    have hknot : ¬k < 1 := not_lt.mpr hk
    have hred : findSimilarChunks (.arr q) (some cl) (some k) =
        ((validSims q cl).mergeSort
          (fun a b => decide (b.similarity ≤ a.similarity))).take k.toNat := by
      unfold findSimilarChunks
      dsimp only
      rw [if_neg hqlen, if_neg hcllen, if_neg hknot]
    have hsorted : List.Pairwise
        (fun a b : SimEntry => (decide (b.similarity ≤ a.similarity)) = true)
        ((validSims q cl).mergeSort
          (fun a b => decide (b.similarity ≤ a.similarity))) :=
      List.sorted_mergeSort
        (by
          intro a b c h1 h2
          rw [decide_eq_true_eq] at h1 h2 ⊢
          exact le_trans h2 h1)
        (by
          intro a b
          rcases le_total b.similarity a.similarity with h | h <;> simp [h])
        (validSims q cl)
    refine ⟨?_, ?_, ?_⟩
    · rw [hred]
      exact ((hsorted.sublist (List.take_sublist _ _)).imp
        fun h => decide_eq_true_eq.mp h)
    · rw [hred, List.length_take, List.length_mergeSort]
    · intro e he
      rw [hred] at he
      have hmem := (List.mergeSort_perm (validSims q cl) _).mem_iff.mp
        (List.mem_of_mem_take he)
      exact mem_validSims q cl e hmem
  · intro cs t; rfl
  · intro cs t; rfl
  · intro v t
    cases v with
    | nonArr => rfl
    | arr q =>
      unfold findSimilarChunks
      dsimp only
      split
      · rfl
      · rfl
  · intro v t
    cases v with
    | nonArr => rfl
    | arr q =>
      unfold findSimilarChunks
      dsimp only
      split
      · rfl
      · rfl

/-- C3 witness: query `[1]` against one valid chunk and one chunk with a
missing embedding, `topK = 3`. -/
theorem findSimilarChunks_spec_witness :
    List.Sorted (fun a b : SimEntry => b.similarity ≤ a.similarity)
      (findSimilarChunks (.arr [JsVal.num 1]) (some demoChunks) (some 3)) ∧
    (findSimilarChunks (.arr [JsVal.num 1]) (some demoChunks) (some 3)).length =
      min (3 : Int).toNat (validSims [JsVal.num 1] demoChunks).length ∧
    (∀ e ∈ findSimilarChunks (.arr [JsVal.num 1]) (some demoChunks) (some 3),
      demoChunks[e.index]? = some e.chunk ∧
      ∃ emb, e.chunk.embedding = some emb ∧
        cosineSimilarity (.arr [JsVal.num 1]) (.arr emb) = .ok e.similarity) :=
  findSimilarChunks_spec.1 [JsVal.num 1] demoChunks 3 (List.cons_ne_nil _ _)
    (List.cons_ne_nil _ _) (by norm_num)

/-- C2: `generateEmbeddings` on a non-empty text list succeeds with exactly
one vector per input text, in input order, every vector of the configured
dimension 768; a non-string or blank item yields the zero-vector placeholder
in place, as does an item whose service call fails after the retries, while a
valid 768-dimensional service result is kept verbatim — so one failed item
never fails the batch. -/
theorem generateEmbeddings_spec (texts : List JsText)
    (svc : Nat → Except String (List ℝ)) (hne : texts ≠ []) :
    ∃ es, generateEmbeddings texts svc = .ok es ∧
      es.length = texts.length ∧
      (∀ v ∈ es, v.length = embeddingDimension) ∧
      (∀ (i : Nat) (t : JsText), texts[i]? = some t →
        es[i]? = some (embedItemResult t (svc i))) ∧
      (∀ i : Nat, texts[i]? = some JsText.nonStr → es[i]? = some zeroVec) ∧
      (∀ (i : Nat) (s : String), texts[i]? = some (JsText.str s) → trimChars s.data = [] →
        es[i]? = some zeroVec) ∧
      (∀ (i : Nat) (s : String) (e : String), texts[i]? = some (JsText.str s) →
        trimChars s.data ≠ [] → svc i = .error e → es[i]? = some zeroVec) ∧
      (∀ (i : Nat) (s : String) (v : List ℝ), texts[i]? = some (JsText.str s) →
        trimChars s.data ≠ [] → svc i = .ok v → v.length = embeddingDimension →
        es[i]? = some v) := by
  have hlen : texts.length ≠ 0 := by simpa [List.length_eq_zero] using hne
  have hpoint : ∀ (i : Nat) (t : JsText), texts[i]? = some t →
      (texts.enum.map fun p => embedItemResult p.2 (svc p.1))[i]? =
        some (embedItemResult t (svc i)) := by
    intro i t ht
    rw [List.getElem?_map, List.getElem?_enum, ht]
    rfl
  refine ⟨texts.enum.map fun p => embedItemResult p.2 (svc p.1), ?_, ?_, ?_, ?_, ?_, ?_, ?_, ?_⟩
  · unfold generateEmbeddings
    rw [if_neg hlen]
  · simp [List.enum_length]
  · intro v hv
    obtain ⟨p, _, rfl⟩ := List.mem_map.mp hv
    exact embedItemResult_length p.2 (svc p.1)
  · exact hpoint
  · intro i ht
    have := hpoint i _ ht
    simpa [embedItemResult] using this
  · intro i s ht htrim
    have := hpoint i _ ht
    simpa [embedItemResult, htrim] using this
  · intro i s e ht htrim hsvc
    have := hpoint i _ ht
    simpa [embedItemResult, htrim, hsvc] using this
  · intro i s v ht htrim hsvc hdim
    have := hpoint i _ ht
    simpa [embedItemResult, htrim, hsvc, hdim] using this

/-- C2 witness: a single-item batch whose service call always fails still
succeeds, with one zero-vector of dimension 768. -/
theorem generateEmbeddings_spec_witness :
    ∃ es, generateEmbeddings [JsText.str "hello"] failingEmbedOracle = .ok es ∧
      es.length = [JsText.str "hello"].length ∧
      (∀ v ∈ es, v.length = embeddingDimension) ∧
      (∀ (i : Nat) (t : JsText), [JsText.str "hello"][i]? = some t →
        es[i]? = some (embedItemResult t (failingEmbedOracle i))) ∧
      (∀ i : Nat, [JsText.str "hello"][i]? = some JsText.nonStr →
        es[i]? = some zeroVec) ∧
      (∀ (i : Nat) (s : String), [JsText.str "hello"][i]? = some (JsText.str s) →
        trimChars s.data = [] → es[i]? = some zeroVec) ∧
      (∀ (i : Nat) (s : String) (e : String),
        [JsText.str "hello"][i]? = some (JsText.str s) → trimChars s.data ≠ [] →
        failingEmbedOracle i = .error e → es[i]? = some zeroVec) ∧
      (∀ (i : Nat) (s : String) (v : List ℝ),
        [JsText.str "hello"][i]? = some (JsText.str s) → trimChars s.data ≠ [] →
        failingEmbedOracle i = .ok v → v.length = embeddingDimension →
        es[i]? = some v) :=
  generateEmbeddings_spec [JsText.str "hello"] failingEmbedOracle
    (List.cons_ne_nil _ _)

/-- C4: `cosineSimilarity` of a non-zero all-numeric vector with itself is 1;
of an all-numeric vector with the zero vector of the same length is 0 (a
defined special case, not a failure); it throws for empty or
length-mismatched vectors and for non-numeric elements; and every
successfully returned value lies in [-1, 1]. -/
theorem cosineSimilarity_spec :
    (∀ A : List JsVal, A.all JsVal.isNum = true → (∃ x ∈ A, x.toNum ≠ 0) →
      cosineSimilarity (.arr A) (.arr A) = .ok 1) ∧
    (∀ A : List JsVal, A.all JsVal.isNum = true → A ≠ [] →
      cosineSimilarity (.arr A)
        (.arr (List.replicate A.length (JsVal.num 0))) = .ok 0) ∧
    (∀ A B : List JsVal, A = [] ∨ A.length ≠ B.length →
      ∃ msg, cosineSimilarity (.arr A) (.arr B) = .error msg) ∧
    (∀ A B : List JsVal, ¬(A.all JsVal.isNum = true ∧ B.all JsVal.isNum = true) →
      ∃ msg, cosineSimilarity (.arr A) (.arr B) = .error msg) ∧
    (∀ va vb r, cosineSimilarity va vb = .ok r → -1 ≤ r ∧ r ≤ 1) := by
  refine ⟨?_, ?_, ?_, ?_, ?_⟩
  · intro A hall hnz
    obtain ⟨x, hxA, hx0⟩ := hnz
    have hAne : A ≠ [] := by rintro rfl; exact absurd hxA (by simp)
    have hlen : ¬(A.length = 0 ∨ A.length ≠ A.length) := by
      simp [List.length_eq_zero, hAne]
    have hs0 : sumSq (A.map JsVal.toNum) ≠ 0 := by
      rw [Ne, sumSq_eq_zero_iff]
      intro hzero
      exact hx0 (hzero x.toNum (List.mem_map_of_mem _ hxA))
    have hspos : 0 < sumSq (A.map JsVal.toNum) :=
      lt_of_le_of_ne (sumSq_nonneg _) (Ne.symm hs0)
    have hsqrt : Real.sqrt (sumSq (A.map JsVal.toNum)) ≠ 0 := by
      rw [Ne, Real.sqrt_eq_zero']
      exact fun hle => absurd (lt_of_lt_of_le hspos hle) (by norm_num)
    simp only [cosineSimilarity]
    rw [if_neg hlen, if_neg (by simp [hall]), if_neg (by simp [hsqrt])]
    rw [dotProd_self, Real.mul_self_sqrt (sumSq_nonneg _), div_self hs0]
    norm_num
  · intro A hall hAne
    have hlen : ¬(A.length = 0 ∨
        A.length ≠ (List.replicate A.length (JsVal.num 0)).length) := by
      simp [List.length_eq_zero, hAne]
    have hallz : (List.replicate A.length (JsVal.num 0)).all JsVal.isNum = true := by
      simp only [List.all_eq_true]
      intro x hx
      rw [List.eq_of_mem_replicate hx]
      rfl
    have hmapz : (List.replicate A.length (JsVal.num 0)).map JsVal.toNum =
        List.replicate A.length (0 : ℝ) := by
      rw [List.map_replicate]
      rfl
    have hzz : sumSq (List.replicate A.length (0 : ℝ)) = 0 := by
      rw [sumSq_eq_zero_iff]
      intro x hx
      exact List.eq_of_mem_replicate hx
    simp only [cosineSimilarity]
    rw [if_neg hlen, if_neg (by simp [hall, hallz]),
      if_pos (Or.inr (by rw [hmapz, hzz, Real.sqrt_zero]))]
  · intro A B h
    refine ⟨lengthMismatchMsg, ?_⟩
    simp only [cosineSimilarity]
    rw [if_pos (h.elim (fun hA => Or.inl (by simp [hA])) Or.inr)]
  · intro A B h
    by_cases hlen : A.length = 0 ∨ A.length ≠ B.length
    · refine ⟨lengthMismatchMsg, ?_⟩
      simp only [cosineSimilarity]
      rw [if_pos hlen]
    · have hand : (A.all JsVal.isNum && B.all JsVal.isNum) = false := by
        cases ha : A.all JsVal.isNum with
        | false => rfl
        | true =>
          cases hb : B.all JsVal.isNum with
          | false => rfl
          | true => exact absurd ⟨ha, hb⟩ h
      refine ⟨nonNumericMsg, ?_⟩
      simp only [cosineSimilarity]
      rw [if_neg hlen, if_pos (by simp [hand])]
  · intro va vb r h
    cases va with
    | nonArr =>
      cases vb <;>
        · simp only [cosineSimilarity] at h
          cases h
          norm_num
    | arr A =>
      cases vb with
      | nonArr =>
        simp only [cosineSimilarity] at h
        cases h
        norm_num
      | arr B =>
        simp only [cosineSimilarity] at h
        split at h
        · cases h
        · split at h
          · cases h
          · split at h
            · cases h
              norm_num
            · cases h
              constructor
              · exact le_max_left _ _
              · exact max_le (by norm_num) (min_le_left _ _)

/-- C4 witness: concrete instances — `[1]` with itself gives 1, `[1]` with
`[0]` gives 0, empty vectors throw, and a non-numeric element throws. -/
theorem cosineSimilarity_spec_witness :
    cosineSimilarity (.arr [JsVal.num 1]) (.arr [JsVal.num 1]) = .ok 1 ∧
    cosineSimilarity (.arr [JsVal.num 1]) (.arr [JsVal.num 0]) = .ok 0 ∧
    (∃ msg, cosineSimilarity (.arr ([] : List JsVal)) (.arr []) = .error msg) ∧
    (∃ msg, cosineSimilarity (.arr [JsVal.nonNum]) (.arr [JsVal.num 1]) = .error msg) := by
  refine ⟨?_, ?_, ?_, ?_⟩
  · exact cosineSimilarity_spec.1 [JsVal.num 1] rfl
      ⟨JsVal.num 1, by simp, by norm_num [JsVal.toNum]⟩
  · have h := cosineSimilarity_spec.2.1 [JsVal.num 1] rfl (List.cons_ne_nil _ _)
    simpa using h
  · exact cosineSimilarity_spec.2.2.1 [] [] (Or.inl rfl)
  · exact cosineSimilarity_spec.2.2.2.1 [JsVal.nonNum] [JsVal.num 1]
      (by simp [JsVal.isNum])

/-- C10: when either argument to `cosineSimilarity` is not an array, the
function returns 0 (an `ok` value) rather than raising any error, unlike the
throwing behavior for mismatched, empty, or non-numeric array arguments. -/
theorem cosineSimilarity_nonArray_returns_zero (x : JsArg) :
    cosineSimilarity JsArg.nonArr x = .ok 0 ∧
    cosineSimilarity x JsArg.nonArr = .ok 0 := by
  cases x <;> exact ⟨rfl, rfl⟩

/-- C7: whenever `chunkText` produces an empty chunk list, the upload pipeline
signals a failure to the caller (either the short-extracted-text rejection or
the empty-chunk-list rejection — the latter whenever the length-50 pre-check
passed) and never proceeds to the embedding step; conversely, the pipeline
proceeds only with the non-empty chunk list produced by `chunkText`. -/
theorem uploadTextStage_empty_chunks_fail (text : String) :
    (chunkText text 500 = [] →
      uploadTextStage text = .insufficientText ∨
      uploadTextStage text = .emptyChunksError) ∧
    (chunkText text 500 = [] → 50 ≤ (trimChars text.data).length →
      uploadTextStage text = .emptyChunksError) ∧
    (∀ cs, uploadTextStage text = .proceedToEmbedding cs →
      cs = chunkText text 500 ∧ cs ≠ []) := by
  refine ⟨?_, ?_, ?_⟩
  · intro h
    unfold uploadTextStage
    split
    · exact Or.inl rfl
    · rw [if_pos (by simp [h])]
      exact Or.inr rfl
  · intro h hge
    unfold uploadTextStage
    rw [if_neg (by omega), if_pos (by simp [h])]
  · intro cs h
    unfold uploadTextStage at h
    split at h
    · exact absurd h (by simp)
    · split at h
      · exact absurd h (by simp)
      · rename_i hne
        cases h
        exact ⟨rfl, fun hnil => hne (by simp [hnil])⟩

/-- C7 witness: the empty string trims to fewer than 50 characters and yields
no chunks, and the pipeline rejects it. -/
theorem uploadTextStage_empty_chunks_fail_witness :
    chunkText "" 500 = [] ∧
    (uploadTextStage "" = .insufficientText ∨
      uploadTextStage "" = .emptyChunksError) :=
  ⟨by decide, (uploadTextStage_empty_chunks_fail "").1 (by decide)⟩

/-- C8 counterexample: with an oracle that always fails with status 429, the
recorded backoff delays are [1000 ms, 2000 ms] — i.e. the delay slept before
attempt 1 is 1000 ms = 1000·2⁰ and the delay before attempt 2 is
2000 ms = 1000·2¹, not 1000·2¹ and 1000·2² as the claim's indexing
("delay before attempt i is 1000·2^i") states; a 4000 ms delay never occurs
within the 3 allowed attempts. -/
theorem retryWithBackoff_delay_indexing_counterexample :
    (retryWithBackoff alwaysBusyOracle 3).2.2 = [1000, 2000] ∧
    (retryWithBackoff alwaysBusyOracle 3).2.2 ≠ [1000 * 2 ^ 1, 1000 * 2 ^ 2] := by
  refine ⟨rfl, ?_⟩
  intro h
  rw [show (retryWithBackoff alwaysBusyOracle 3).2.2 = [1000, 2000] from rfl] at h
  norm_num at h

/-- C8 (amended): `retryWithBackoff` with the default 3 retries makes at most
3 attempts; a success returns immediately; a non-retryable failure (no 429/503
status and no overload/rate-limit message) aborts immediately re-raising that
error; after the i-th failed retryable attempt the wrapper sleeps 1000·2^i ms
(so the observed delays are 1000 ms then 2000 ms); and on exhausting all
attempts the last underlying error is re-raised unchanged. -/
theorem retryWithBackoff_spec {α : Type} (f : Nat → Except JsError α) :
    (retryWithBackoff f 3).2.1 ≤ 3 ∧
    (∀ a, f 0 = .ok a → retryWithBackoff f 3 = (.ok a, 1, [])) ∧
    (∀ e, f 0 = .error e → isRateLimitError e = false →
      retryWithBackoff f 3 = (.error e, 1, [])) ∧
    (∀ e0 a, f 0 = .error e0 → isRateLimitError e0 = true → f 1 = .ok a →
      retryWithBackoff f 3 = (.ok a, 2, [1000 * 2 ^ 0])) ∧
    (∀ e0 e1, f 0 = .error e0 → isRateLimitError e0 = true → f 1 = .error e1 →
      isRateLimitError e1 = false →
      retryWithBackoff f 3 = (.error e1, 2, [1000 * 2 ^ 0])) ∧
    (∀ e0 e1 a, f 0 = .error e0 → isRateLimitError e0 = true → f 1 = .error e1 →
      isRateLimitError e1 = true → f 2 = .ok a →
      retryWithBackoff f 3 = (.ok a, 3, [1000 * 2 ^ 0, 1000 * 2 ^ 1])) ∧
    (∀ e0 e1 e2, f 0 = .error e0 → isRateLimitError e0 = true → f 1 = .error e1 →
      isRateLimitError e1 = true → f 2 = .error e2 →
      retryWithBackoff f 3 = (.error e2, 3, [1000 * 2 ^ 0, 1000 * 2 ^ 1])) := by
  refine ⟨?_, ?_, ?_, ?_, ?_, ?_, ?_⟩
  · rcases h0 : f 0 with e0 | a0
    · rcases hr0 : isRateLimitError e0 with _ | _
      · simp [retryWithBackoff, retryGo, h0, hr0]
      · rcases h1 : f 1 with e1 | a1
        · rcases hr1 : isRateLimitError e1 with _ | _
          · simp [retryWithBackoff, retryGo, h0, hr0, h1, hr1]
          · rcases h2 : f 2 with e2 | a2 <;>
              simp [retryWithBackoff, retryGo, h0, hr0, h1, hr1, h2]
        · simp [retryWithBackoff, retryGo, h0, hr0, h1]
    · simp [retryWithBackoff, retryGo, h0]
  · intro a h0
    simp [retryWithBackoff, retryGo, h0]
  · intro e h0 hr0
    simp [retryWithBackoff, retryGo, h0, hr0]
  · intro e0 a h0 hr0 h1
    simp [retryWithBackoff, retryGo, h0, hr0, h1]
  · intro e0 e1 h0 hr0 h1 hr1
    simp [retryWithBackoff, retryGo, h0, hr0, h1, hr1]
  · intro e0 e1 a h0 hr0 h1 hr1 h2
    simp [retryWithBackoff, retryGo, h0, hr0, h1, hr1, h2]
  · intro e0 e1 e2 h0 hr0 h1 hr1 h2
    simp [retryWithBackoff, retryGo, h0, hr0, h1, hr1, h2]

/-- C8 witness: the exhaustion clause applied to the always-429 oracle — three
attempts, delays 1000 ms then 2000 ms, and the last error re-raised unchanged. -/
theorem retryWithBackoff_spec_witness :
    retryWithBackoff alwaysBusyOracle 3 =
      (.error ⟨some 429, "Resource exhausted"⟩, 3, [1000 * 2 ^ 0, 1000 * 2 ^ 1]) :=
  (retryWithBackoff_spec alwaysBusyOracle).2.2.2.2.2.2
    ⟨some 429, "Resource exhausted"⟩ ⟨some 429, "Resource exhausted"⟩
    ⟨some 429, "Resource exhausted"⟩ rfl (by decide) rfl (by decide) rfl

/-- C9: `calculateFinalScores` selects exactly the transcript messages with
role assistant and both scores present; with no such message all three
aggregates stay unset; otherwise the per-axis aggregates are the arithmetic
means rounded to one decimal place and the final score is the rounded mean of
the two (unrounded) axis means. -/
theorem calculateFinalScores_spec (messages : List ChatMessage) :
    (∀ m, m ∈ scoredMessages messages ↔
      m ∈ messages ∧ m.role = Role.assistant ∧
        m.relevanceScore.isSome ∧ m.correctnessScore.isSome) ∧
    (scoredMessages messages = [] →
      calculateFinalScores messages = ⟨none, none, none⟩) ∧
    (scoredMessages messages ≠ [] →
      calculateFinalScores messages =
        let scored := scoredMessages messages
        let avgRelevance :=
          ((scored.map fun m => m.relevanceScore.getD 0).sum : ℚ) / scored.length
        let avgCorrectness :=
          ((scored.map fun m => m.correctnessScore.getD 0).sum : ℚ) / scored.length
        ⟨some (round1 ((avgRelevance + avgCorrectness) / 2)),
          some (round1 avgRelevance), some (round1 avgCorrectness)⟩) := by
  refine ⟨?_, ?_, ?_⟩
  · intro m
    simp [scoredMessages, List.mem_filter, and_assoc]
  · intro h
    simp [calculateFinalScores, h]
  · intro h
    have hlen : (scoredMessages messages).length ≠ 0 := by
      simpa [List.length_eq_zero] using h
    simp only [calculateFinalScores, if_neg hlen]

/-- C9 witness: with assistant relevance scores [8, 6] and correctness scores
[6, 8], the averages are 7.0, 7.0 and the final score is 7.0. -/
theorem calculateFinalScores_spec_witness :
    scoredMessages demoScoredMessages ≠ [] ∧
    calculateFinalScores demoScoredMessages = ⟨some 7, some 7, some 7⟩ := by
  have hs : scoredMessages demoScoredMessages =
      [⟨Role.assistant, some 8, some 6⟩, ⟨Role.assistant, some 6, some 8⟩] := rfl
  have hne : scoredMessages demoScoredMessages ≠ [] := by
    rw [hs]; exact List.cons_ne_nil _ _
  have h := (calculateFinalScores_spec demoScoredMessages).2.2 hne
  refine ⟨hne, ?_⟩
  rw [h, hs]
  norm_num [round1]

/-- C5: for every input text and `wordsPerChunk ≥ 1`, `chunkText` collapses
whitespace, splits the cleaned text into words, and slices them into
consecutive non-overlapping windows in input order (their concatenation is
exactly the word list, every window is non-empty with at most
`wordsPerChunk` words, and every window but possibly the last has exactly
`wordsPerChunk`); the returned chunks are exactly the joined windows whose
trimmed length exceeds 50 characters, kept verbatim; consequently the total
word count over the returned chunks equals the input word count minus the
words of the discarded (trimmed-length ≤ 50) windows. -/
theorem chunkText_spec (text : String) (wpc : Nat) (hwpc : 1 ≤ wpc) :
    (sliceWindows wpc (wordsOfCleaned text)).flatten = wordsOfCleaned text ∧
    (∀ w ∈ sliceWindows wpc (wordsOfCleaned text), w ≠ [] ∧ w.length ≤ wpc) ∧
    (∀ w ∈ (sliceWindows wpc (wordsOfCleaned text)).dropLast, w.length = wpc) ∧
    chunkText text wpc =
      ((sliceWindows wpc (wordsOfCleaned text)).filter fun w =>
        decide (50 < (trimChars (joinWords w)).length)).map
        (fun w => String.mk (joinWords w)) ∧
    ((chunkText text wpc).map fun s => (splitOnChar ' ' s.data).length).sum =
      (wordsOfCleaned text).length -
        (((sliceWindows wpc (wordsOfCleaned text)).filter fun w =>
          !decide (50 < (trimChars (joinWords w)).length)).map List.length).sum := by
  have hflat : (sliceWindows wpc (wordsOfCleaned text)).flatten = wordsOfCleaned text :=
    sliceGo_flatten wpc hwpc _ _ (le_refl _)
  have hsizes := sliceGo_window_sizes wpc hwpc (wordsOfCleaned text).length
    (wordsOfCleaned text) (le_refl _)
  have hdropl := sliceGo_dropLast_sizes wpc hwpc (wordsOfCleaned text).length
    (wordsOfCleaned text) (le_refl _)
  -- Every window whose joined text survives the 50-character cut trims to
  -- itself and splits back into its own words.
  have hkey : ∀ w ∈ sliceWindows wpc (wordsOfCleaned text),
      50 < (trimChars (joinWords w)).length →
      trimChars (joinWords w) = joinWords w ∧
      splitOnChar ' ' (joinWords w) = w := by
    by_cases hclean : cleanChars text.data = []
    · -- degenerate case: the cleaned text is empty, the only window is [[]]
      have hwords : wordsOfCleaned text = [[]] := by
        unfold wordsOfCleaned
        rw [hclean]
        rfl
      have hwin : sliceWindows wpc (wordsOfCleaned text) = [[[]]] :=
        flatten_eq_singleton [] _ (by rw [hflat, hwords]) fun w hw => (hsizes w hw).1
      intro w hw h50
      rw [hwin] at hw
      rcases List.mem_cons.mp hw with rfl | hw
      · exact absurd h50 (by decide)
      · exact absurd hw (List.not_mem_nil w)
    · -- main case: every word is non-empty and whitespace-free
      have hw_props : ∀ t ∈ wordsOfCleaned text, t ≠ [] ∧ ∀ c ∈ t, ¬c.isWhitespace :=
        wordsOfCleaned_props text hclean
      intro w hw _
      have hwin_words : ∀ u ∈ w, u ≠ [] ∧ ∀ c ∈ u, ¬c.isWhitespace := by
        intro u hu
        exact hw_props u (by rw [← hflat]; exact List.mem_flatten.mpr ⟨w, hw, hu⟩)
      have hwne : w ≠ [] := (hsizes w hw).1
      constructor
      · exact trimChars_eq_self _ (joinWords_head_not_ws w hwin_words)
          (joinWords_last_not_ws w hwin_words)
      · exact splitOnChar_joinWords w
          (fun u hu c => (hwin_words u hu).2 ' ' c (by decide)) hwne
  have hstep1 : chunkText text wpc =
      ((sliceWindows wpc (wordsOfCleaned text)).filter fun w =>
        decide (50 < (trimChars (joinWords w)).length)).map
        (fun w => String.mk (trimChars (joinWords w))) := by
    unfold chunkText
    rw [List.filterMap_map]
    exact filterMap_if_eq_filter_map
      (fun w => 50 < (trimChars (joinWords w)).length)
      (fun w => String.mk (trimChars (joinWords w))) _
  have hstep2 : chunkText text wpc =
      ((sliceWindows wpc (wordsOfCleaned text)).filter fun w =>
        decide (50 < (trimChars (joinWords w)).length)).map
        (fun w => String.mk (joinWords w)) := by
    rw [hstep1]
    apply List.map_congr_left
    intro w hw
    obtain ⟨hwmem, hp⟩ := List.mem_filter.mp hw
    rw [(hkey w hwmem (of_decide_eq_true hp)).1]
  refine ⟨hflat, hsizes, hdropl, hstep2, ?_⟩
  rw [hstep2, List.map_map]
  have hcongr : ((sliceWindows wpc (wordsOfCleaned text)).filter fun w =>
      decide (50 < (trimChars (joinWords w)).length)).map
        ((fun s => (splitOnChar ' ' s.data).length) ∘
          fun w => String.mk (joinWords w)) =
      ((sliceWindows wpc (wordsOfCleaned text)).filter fun w =>
        decide (50 < (trimChars (joinWords w)).length)).map List.length := by
    apply List.map_congr_left
    intro w hw
    obtain ⟨hwmem, hp⟩ := List.mem_filter.mp hw
    show (splitOnChar ' ' (String.mk (joinWords w)).data).length = w.length
    rw [show (String.mk (joinWords w)).data = joinWords w from rfl,
      (hkey w hwmem (of_decide_eq_true hp)).2]
  rw [hcongr]
  have hpart := sum_map_filter_partition
    (fun w => decide (50 < (trimChars (joinWords w)).length)) List.length
    (sliceWindows wpc (wordsOfCleaned text))
  have htot : ((sliceWindows wpc (wordsOfCleaned text)).map List.length).sum =
      (wordsOfCleaned text).length := by
    rw [← List.length_flatten, hflat]
  omega

/-- C5 witness: the demo text with `wordsPerChunk = 2`. -/
theorem chunkText_spec_witness :
    (sliceWindows 2 (wordsOfCleaned demoChunkTextInput)).flatten =
      wordsOfCleaned demoChunkTextInput ∧
    (∀ w ∈ sliceWindows 2 (wordsOfCleaned demoChunkTextInput),
      w ≠ [] ∧ w.length ≤ 2) ∧
    (∀ w ∈ (sliceWindows 2 (wordsOfCleaned demoChunkTextInput)).dropLast,
      w.length = 2) ∧
    chunkText demoChunkTextInput 2 =
      ((sliceWindows 2 (wordsOfCleaned demoChunkTextInput)).filter fun w =>
        decide (50 < (trimChars (joinWords w)).length)).map
        (fun w => String.mk (joinWords w)) ∧
    ((chunkText demoChunkTextInput 2).map fun s =>
        (splitOnChar ' ' s.data).length).sum =
      (wordsOfCleaned demoChunkTextInput).length -
        (((sliceWindows 2 (wordsOfCleaned demoChunkTextInput)).filter fun w =>
          !decide (50 < (trimChars (joinWords w)).length)).map List.length).sum :=
  chunkText_spec demoChunkTextInput 2 (by decide)

end ChatBot60
